import Mathlib

/-!
Verification of the wink-bm25-text-search engine
(src/wink-bm25-text-search.js) against its specification.

The engine is a closure holding mutable variables (`pTasks`, `pTaskCount`,
`flds`, `documents`, `invertedIdx`, `idf`, `learned`, `consolidated`,
`totalDocs`, `totalCorpusLength`, `avgCorpusLength`, `config`).  We embed it
as a record `EngineState`; every public operation becomes a function
`EngineState → args → EngineState × Except EngineError r`, returning the
state as mutated by the call (JavaScript exceptions abort the call but keep
all in-place mutations performed so far, so failed calls may return a
changed state, exactly as in the source).

JavaScript objects used as maps are embedded as association lists
`List (String × β)` with insertion-order semantics: assigning to an existing
key updates it in place, a fresh key is appended (`setVal`), and reads are
`getVal`.  Numbers are embedded as `ℚ`; `Math.log` is an external numeric
routine (a float function, not the exact real logarithm) and is passed in as
an opaque pure function `rlog : ℚ → ℚ`, exactly as the caller-supplied
preparation tasks are opaque pure functions on values.
-/

instance {ε : Type u} {α : Type v} [DecidableEq ε] [DecidableEq α] :
    DecidableEq (Except ε α) := fun
  | .ok a, .ok b =>
    match decEq a b with
    | isTrue h => isTrue (h ▸ rfl)
    | isFalse h => isFalse (fun hh => h (Except.ok.inj hh))
  | .error a, .error b =>
    match decEq a b with
    | isTrue h => isTrue (h ▸ rfl)
    | isFalse h => isFalse (fun hh => h (Except.error.inj hh))
  | .ok _, .error _ => isFalse (fun hh => Except.noConfusion hh)
  | .error _, .ok _ => isFalse (fun hh => Except.noConfusion hh)

/-- Error conditions.  The five documented kinds of the spec, plus
`typeError`, which stands for a raw JavaScript `TypeError` raised when the
code calls something that is `undefined` — not one of the documented
kinds. -/
inductive EngineError where
  | invalidArgument
  | invalidState
  | duplicateId
  | missingField
  | insufficientData
  | typeError
  deriving DecidableEq, Repr

/-- Whether an error is one of the five documented kinds of the spec. -/
def EngineError.isDocumentedKind : EngineError → Bool
  | .typeError => false
  | _ => true

/-- A JavaScript value flowing through a preparation pipeline: the raw field
text, or an array of tokens produced by some task. -/
inductive JsVal where
  | str (s : String)
  | toks (ts : List String)
  deriving DecidableEq

/-- JavaScript `v.length` / `v[i]` iteration over a pipeline output: an array
yields its elements, and a string yields its characters (each a one-character
string), which is what the `for` loops in `updateFreq` and `search` do when
no task ever turned the text into an array. -/
def JsVal.toTokens : JsVal → List String
  | .str s => s.data.map (fun c => String.mk [c])
  | .toks ts => ts

/-- A preparation task: an opaque caller-supplied pure function. -/
def PrepTask := JsVal → JsVal

/-- Read `obj[key]` from an object embedded as an association list. -/
def getVal {β : Type} : List (String × β) → String → Option β
  | [], _ => none
  | (k, v) :: rest, key => if k = key then some v else getVal rest key

/-- Write `obj[key] = v`: update in place if the key exists, else append. -/
def setVal {β : Type} : List (String × β) → String → β → List (String × β)
  | [], key, v => [(key, v)]
  | (k, w) :: rest, key, v =>
      if k = key then (k, v) :: rest else (k, w) :: setVal rest key v

/-- The keys of an embedded object, in insertion order. -/
def keysOf {β : Type} (l : List (String × β)) : List String :=
  l.map Prod.fst

/-- The own property names of `Object.prototype`.  Objects created with
`Object.create(null)` (everything the engine builds itself) do not inherit
them, but objects produced by `JSON.parse` — the document store and
inverted index after `importJSON` — do, so reading one of these keys on
such an object yields the inherited function (or, for `__proto__`, the
prototype object) instead of `undefined`. -/
def objectProtoKeys : List String :=
  ["constructor", "hasOwnProperty", "isPrototypeOf", "propertyIsEnumerable",
   "toLocaleString", "toString", "valueOf", "__proto__",
   "__defineGetter__", "__defineSetter__", "__lookupGetter__",
   "__lookupSetter__"]

/-- The JavaScript test `obj[key] !== undefined` on an object that may
(`proto = true`) or may not (`proto = false`) inherit `Object.prototype`:
an own entry, or an inherited `Object.prototype` property. -/
def jsHasProp {β : Type} (proto : Bool) (l : List (String × β))
    (key : String) : Bool :=
  (getVal l key).isSome || (proto && decide (key ∈ objectProtoKeys))

/-- Field-specific preparation tasks: `flds[field]` of the source. -/
structure FldEntry where
  pTasks : List PrepTask
  pTaskCount : ℕ

/-- The configuration object built by `defineConfig`. -/
structure Config where
  fldWeights : List (String × ℚ)
  k1 : ℚ
  b : ℚ
  k : ℚ
  deriving DecidableEq

/-- `documents[id]`: per-term weighted frequencies and the weighted length. -/
structure DocRecord where
  freq : List (String × ℚ)
  length : ℚ
  deriving DecidableEq

/-- The closure state of one engine instance.  `fromJSON` records whether
the current `documents` and `invertedIdx` objects were produced by
`JSON.parse` (that is, loaded by `importJSON`): such objects inherit
`Object.prototype`, unlike the `Object.create(null)` stores the engine
builds itself, so property reads on them can hit an inherited
`Object.prototype` member where a null-prototype store would yield
`undefined`.  `reset()` replaces both stores with fresh null-prototype
objects, clearing the flag. -/
structure EngineState where
  pTasks : List PrepTask
  pTaskCount : ℕ
  flds : List (String × FldEntry)
  documents : List (String × DocRecord)
  invertedIdx : List (String × List String)
  idf : List (String × ℚ)
  learned : Bool
  consolidated : Bool
  totalDocs : ℕ
  totalCorpusLength : ℚ
  avgCorpusLength : ℚ
  config : Option Config
  fromJSON : Bool

/-- The state of a freshly created instance. -/
def initState : EngineState :=
  { pTasks := [], pTaskCount := 0, flds := [], documents := [],
    invertedIdx := [], idf := [], learned := false, consolidated := false,
    totalDocs := 0, totalCorpusLength := 0, avgCorpusLength := 0,
    config := none, fromJSON := false }

/-- The loop `for (i = 0; i < ptc; i += 1) processedInput = pt[i](processedInput)`.
When `ptc` exceeds the number of tasks, `pt[i]` is `undefined` and calling it
raises a `TypeError`. -/
def runTasks : List PrepTask → ℕ → JsVal → Except EngineError JsVal
  | _, 0, input => .ok input
  | [], _ + 1, _ => .error .typeError
  | f :: rest, n + 1, input => runTasks rest n (f input)

/-- `prepareInput(input, field)`.  The source selects
`pt = (flds[field] && flds[field].pTasks) || pTasks` and
`ptc = (flds[field] && flds[field].pTaskCount) || pTaskCount`.  A field entry
always stores an array, which is truthy even when empty, so `pt` is the field
entry's task list whenever the entry exists; but a task count of `0` is falsy,
so `ptc` falls back to the default count in that case. -/
def prepareInput (st : EngineState) (input : JsVal) (field : Option String) :
    Except EngineError JsVal :=
  let fe := field.bind (fun f => getVal st.flds f)
  let pt := match fe with
    | some e => e.pTasks
    | none => st.pTasks
  let ptc := match fe with
    | some e => if e.pTaskCount = 0 then st.pTaskCount else e.pTaskCount
    | none => st.pTaskCount
  runTasks pt ptc input

/-- The body of the token loop of `updateFreq`: on the first occurrence of
a term in this document, create its frequency entry at `weight` and append
`id` to the term's id list of the inverted index (creating the list first
when absent); on a repeated occurrence, add `weight` to the entry.

`proto` says whether the inverted index inherits `Object.prototype`
(true after `importJSON`).  On such an index, a first-occurrence term that
names an `Object.prototype` property and has no own entry makes
`invertedIdx[t] || []` keep the inherited member (it is truthy), so the
subsequent `.push(id)` throws a `TypeError` — after `freq[t] = weight` has
already run.  (The source's assignment also stores that inherited junk
value under `t` as an own property before the push throws; the entry is
unusable either way, and the model keeps the index unchanged instead.) -/
def freqStep (proto : Bool) (id : String) (weight : ℚ)
    (pr : List (String × ℚ) × List (String × List String)) (t : String) :
    (List (String × ℚ) × List (String × List String)) ×
      Except EngineError Unit :=
  match getVal pr.1 t with
  | none =>
      if proto = true ∧ t ∈ objectProtoKeys ∧ getVal pr.2 t = none then
        ((setVal pr.1 t weight, pr.2), .error .typeError)
      else
        ((setVal pr.1 t weight,
          setVal pr.2 t ((getVal pr.2 t).getD [] ++ [id])), .ok ())
  | some f => ((setVal pr.1 t (f + weight), pr.2), .ok ())

/-- The token loop of `updateFreq`, stopping at the first throwing step and
keeping the mutations made up to (and inside) it. -/
def runFreqSteps (proto : Bool) (id : String) (weight : ℚ) :
    List String → List (String × ℚ) × List (String × List String) →
    (List (String × ℚ) × List (String × List String)) ×
      Except EngineError Unit
  | [], pr => (pr, .ok ())
  | t :: rest, pr =>
    match freqStep proto id weight pr t with
    | (pr2, .error e) => (pr2, .error e)
    | (pr2, .ok _) => runFreqSteps proto id weight rest pr2

/-- `updateFreq(id, text, weight, freq, field)`: tokenize the text via
`prepareInput`, run the token loop, and return the updated frequency map
and inverted index together with `tkns.length * Math.abs(weight)`.  A throw
(from `prepareInput`, or from a token hitting an inherited
`Object.prototype` member of an imported inverted index) surfaces the
mutations already made, since the source updates the live objects in
place. -/
def updateFreq (st : EngineState) (id text : String) (weight : ℚ)
    (freq : List (String × ℚ)) (inv : List (String × List String))
    (field : String) :
    (List (String × ℚ) × List (String × List String)) ×
      Except EngineError ℚ :=
  match prepareInput st (.str text) (some field) with
  | .error e => ((freq, inv), .error e)
  | .ok v =>
    let tkns := v.toTokens
    match runFreqSteps st.fromJSON id weight tkns (freq, inv) with
    | (p, .error e) => (p, .error e)
    | (p, .ok _) => (p, .ok ((tkns.length : ℚ) * |weight|))

/-- `definePrepTasks(tasks, field)`: install the default pipeline, or a
field-specific one.  (The runtime checks that `tasks` is an array of
functions and `field` a string are discharged by the embedding's types.) -/
def definePrepTasks (st : EngineState) (tasks : List PrepTask)
    (field : Option String) : EngineState × Except EngineError ℕ :=
  match field with
  | none =>
      ({ st with pTasks := tasks, pTaskCount := tasks.length },
       .ok tasks.length)
  | some f =>
      ({ st with flds := setVal st.flds f ⟨tasks, tasks.length⟩ },
       .ok tasks.length)

/-- Raw `bm25Params` of a `defineConfig` argument; `none` stands for an
absent, `null` or non-numeric value, which falls back to the default. -/
structure RawParams where
  k1 : Option ℚ
  b : Option ℚ
  k : Option ℚ

/-- Raw `defineConfig` argument.  A weight of `none` stands for `null` or a
non-numeric value, which the source rejects. -/
structure RawConfig where
  fldWeights : List (String × Option ℚ)
  bm25Params : Option RawParams

/-- The `for (field in cfg.fldWeights)` loop of `defineConfig`: copy the
weights into the fresh configuration, aborting on the first `null` or
non-numeric weight.  On abort, the weights copied so far are kept (the
source has already overwritten `config`). -/
def buildWeights :
    List (String × Option ℚ) → List (String × ℚ) →
    List (String × ℚ) × Except EngineError Unit
  | [], acc => (acc, .ok ())
  | (_, none) :: _, acc => (acc, .error .invalidArgument)
  | (f, some w) :: rest, acc => buildWeights rest (setVal acc f w)

/-- `defineConfig(cfg)`.  Fails with the state intact when learning has
started or no field is configured; a bad weight aborts after `config` has
already been replaced by the partially built object (whose `bm25Params`
still hold the defaults `k1 = 1.2`, `b = 0.75`, `k = 1`). -/
def defineConfig (st : EngineState) (cfg : RawConfig) :
    EngineState × Except EngineError Bool :=
  if st.learned then (st, .error .invalidState)
  else if cfg.fldWeights.isEmpty then (st, .error .invalidArgument)
  else
    let bw := buildWeights cfg.fldWeights []
    match bw.2 with
    | .error e =>
        ({ st with config := some ⟨bw.1, 1.2, 0.75, 1⟩ }, .error e)
    | .ok _ =>
        let b := ((cfg.bm25Params.bind RawParams.b).getD 0.75)
        let k1 := ((cfg.bm25Params.bind RawParams.k1).getD 1.2)
        let k := ((cfg.bm25Params.bind RawParams.k).getD 1)
        ({ st with config := some ⟨bw.1, k1, b, k⟩ }, .ok true)

/-- Accumulator of the per-field loop of `addDoc`: the document's frequency
map being built, the inverted index, the running corpus length, and the
document's length. -/
structure AddAcc where
  freq : List (String × ℚ)
  inv : List (String × List String)
  tcl : ℚ
  len : ℚ

/-- The `for (field in fldWeights)` loop of `addDoc`.  A missing field (or a
`TypeError` from a broken pipeline) aborts the loop, keeping every mutation
made for the fields already processed. -/
def addFields (st : EngineState) (doc : List (String × String)) (id : String) :
    List (String × ℚ) → AddAcc → AddAcc × Except EngineError Unit
  | [], acc => (acc, .ok ())
  | (field, w) :: rest, acc =>
    match getVal doc field with
    | none => (acc, .error .missingField)
    | some text =>
      match updateFreq st id text w acc.freq acc.inv field with
      | (p, .error e) => (⟨p.1, p.2, acc.tcl, acc.len⟩, .error e)
      | (p, .ok l) =>
          addFields st doc id rest ⟨p.1, p.2, acc.tcl + l, acc.len + l⟩

/-- `addDoc(doc, id)`.  The source sets `learned = true` before the
duplicate check, creates `documents[id]` before the field loop, and
increments `totalDocs` only after the loop, so a failed call can leave a
partially filled document entry behind.  The duplicate test is
`documents[id] !== undefined`, which on a store loaded by `importJSON`
(inheriting `Object.prototype`) is also true for ids that name an
`Object.prototype` property, such as `"toString"`. -/
def addDoc (st : EngineState) (doc : List (String × String)) (id : String) :
    EngineState × Except EngineError ℕ :=
  match st.config with
  | none => (st, .error .invalidState)
  | some cfg =>
    if st.consolidated then (st, .error .invalidState)
    else
      let st1 := { st with learned := true }
      if jsHasProp st1.fromJSON st1.documents id then (st1, .error .duplicateId)
      else
        let r := addFields st1 doc id cfg.fldWeights
          ⟨[], st1.invertedIdx, st1.totalCorpusLength, 0⟩
        let st2 := { st1 with
          documents := st1.documents ++ [(id, ⟨r.1.freq, r.1.len⟩)],
          invertedIdx := r.1.inv,
          totalCorpusLength := r.1.tcl }
        match r.2 with
        | .error e => (st2, .error e)
        | .ok _ =>
            ({ st2 with totalDocs := st2.totalDocs + 1 },
             .ok (st2.totalDocs + 1))

/-- `Math.sign`. -/
def jsSign (q : ℚ) : ℚ :=
  if 0 < q then 1 else if q < 0 then -1 else 0

/-- The BM25 transform applied by `consolidate` to one stored frequency of
a document whose normalization factor is `nf`:
`Math.sign(freq) * Math.abs((freq * (k1 + 1)) / ((k1 * normalizationFactor) + freq))`. -/
def consFreq (cfg : Config) (nf f : ℚ) : ℚ :=
  jsSign f * |f * (cfg.k1 + 1) / (cfg.k1 * nf + f)|

/-- The normalization factor
`(1 - b) + (b * (documents[id].length / avgCorpusLength))` of one document. -/
def normFactor (cfg : Config) (avg len : ℚ) : ℚ :=
  (1 - cfg.b) + cfg.b * (len / avg)

/-- The transform `consolidate` applies to one document record. -/
def consDoc (cfg : Config) (avg : ℚ) (rec : DocRecord) : DocRecord :=
  ⟨rec.freq.map (fun q => (q.1, consFreq cfg (normFactor cfg avg rec.length) q.2)),
   rec.length⟩

/-- The `for (id in documents)` pass of `consolidate`. -/
def consolidateDocs (cfg : Config) (avg : ℚ)
    (docs : List (String × DocRecord)) : List (String × DocRecord) :=
  docs.map (fun p => (p.1, consDoc cfg avg p.2))

/-- The idf value `Math.log(((totalDocs - n) / totalDocs) + k)` stored by
`consolidate` for a term whose id list has length `n`. -/
def idfValue (rlog : ℚ → ℚ) (cfg : Config) (totalDocs n : ℕ) : ℚ :=
  rlog ((((totalDocs : ℚ) - (n : ℚ)) / (totalDocs : ℚ)) + cfg.k)

/-- The `for (t in invertedIdx)` pass of `consolidate`, writing the idf
table. -/
def consolidateIdf (rlog : ℚ → ℚ) (cfg : Config) (totalDocs : ℕ)
    (inv : List (String × List String)) (idf0 : List (String × ℚ)) :
    List (String × ℚ) :=
  inv.foldl (fun m p => setVal m p.1 (idfValue rlog cfg totalDocs p.2.length))
    idf0

/-- `consolidate()`, parameterized over the external logarithm routine
`rlog` (`Math.log`).  Rejects collections of fewer than 3 documents, then
replaces every stored frequency `f` by
`sign(f) * |f * (k1 + 1) / (k1 * normalizationFactor + f)|` and fills the
IDF table with `rlog(((totalDocs - n) / totalDocs) + k)` for every term of
the inverted index, where `n` is the length of the term's id list.  Reading
`config.bm25Params` of a `null` configuration would raise a `TypeError`. -/
def consolidate (rlog : ℚ → ℚ) (st : EngineState) :
    EngineState × Except EngineError Bool :=
  if st.totalDocs < 3 then (st, .error .insufficientData)
  else
    match st.config with
    | none => (st, .error .typeError)
    | some cfg =>
      let avg := st.totalCorpusLength / (st.totalDocs : ℚ)
      ({ st with
          documents := consolidateDocs cfg avg st.documents,
          idf := consolidateIdf rlog cfg st.totalDocs st.invertedIdx st.idf,
          avgCorpusLength := avg,
          consolidated := true },
       .ok true)

/-- The score contribution `documents[id].freq[t] * idf[t]` of term `t` to
document `id`. -/
def termScore (st : EngineState) (t id : String) : ℚ :=
  (((getVal st.documents id).bind (fun rec => getVal rec.freq t)).getD 0) *
    ((getVal st.idf t).getD 0)

/-- The inner loop of `search`: for each id on the posting list, accumulate
`results[id] = documents[id].freq[t] * idf[t] + (results[id] || 0)`.
Reading `documents[id]` of an id absent from the document store would raise
a `TypeError`. -/
def accumIds (st : EngineState) (t : String) :
    List String → List (String × ℚ) →
    Except EngineError (List (String × ℚ))
  | [], res => .ok res
  | id :: rest, res =>
    match getVal st.documents id with
    | none => .error .typeError
    | some _ =>
        accumIds st t rest
          (setVal res id (termScore st t id + (getVal res id).getD 0))

/-- One token of the `search` loop: tokens absent from the inverted index
are skipped. -/
def accumToken (st : EngineState) (res : List (String × ℚ)) (t : String) :
    Except EngineError (List (String × ℚ)) :=
  match getVal st.invertedIdx t with
  | none => .ok res
  | some ids => accumIds st t ids res

/-- The full token loop of `search`, building the `results` object. -/
def searchTable (st : EngineState) :
    List String → List (String × ℚ) →
    Except EngineError (List (String × ℚ))
  | [], res => .ok res
  | t :: rest, res =>
    match accumToken st res t with
    | .error e => .error e
    | .ok res2 => searchTable st rest res2

/-- `Math.max((limit || 10), 1)`: an absent limit — and also a limit of `0`,
which is falsy — falls back to 10, and the result is clamped to at least 1. -/
def effLimit (limit : Option ℤ) : ℕ :=
  (max (match limit with
        | none => (10 : ℤ)
        | some l => if l = 0 then 10 else l) 1).toNat

/-- Descending order on the score component, the order produced by
`helpers.array.descendingOnValue`. -/
def byScoreDesc (a b : String × ℚ) : Prop := b.2 ≤ a.2

instance : DecidableRel byScoreDesc := fun a b =>
  inferInstanceAs (Decidable (b.2 ≤ a.2))

instance : IsTotal (String × ℚ) byScoreDesc :=
  ⟨fun a b => le_total b.2 a.2⟩

instance : IsTrans (String × ℚ) byScoreDesc :=
  ⟨fun _ _ _ h1 h2 => le_trans h2 h1⟩

/-- `search(text, limit)`: refuse before consolidation, tokenize via the
reserved `search` pipeline, accumulate scores through the inverted index,
then sort descending on score and truncate.  (The runtime check that `text`
is a string is discharged by the embedding's types.)  `search` never mutates
the state. -/
def search (st : EngineState) (text : String) (limit : Option ℤ) :
    Except EngineError (List (String × ℚ)) :=
  if st.consolidated = false then .error .invalidState
  else
    match prepareInput st (.str text) (some "search") with
    | .error e => .error e
    | .ok v =>
      match searchTable st v.toTokens [] with
      | .error e => .error e
      | .ok tbl =>
          .ok ((List.insertionSort byScoreDesc tbl).take (effLimit limit))

/-- `reset()`: clear all learning state, keeping the preparation tasks.
The stores are replaced by fresh `Object.create(null)` objects, so they no
longer inherit `Object.prototype` even when the old ones came from
`importJSON`. -/
def resetLearnings (st : EngineState) : EngineState × Bool :=
  ({ st with documents := [], invertedIdx := [], idf := [], learned := false,
             consolidated := false, totalDocs := 0, totalCorpusLength := 0,
             avgCorpusLength := 0, config := none, fromJSON := false },
   true)

/-- The logical content of the serialized blob
`[config, {totalCorpusLength, totalDocs}, documents, invertedIdx]`.  A
`config` of `none` stands for the JSON `null` written when exporting an
unconfigured instance; `null` fails the import-time `isObject` check.  (The
other three elements of a blob produced by `exportJSON` are always plain
objects, so only the configuration check can fire on a round-trip.) -/
structure Snapshot where
  config : Option Config
  totalCorpusLength : ℚ
  totalDocs : ℕ
  documents : List (String × DocRecord)
  invertedIdx : List (String × List String)

/-- `exportJSON()`: serialize the four learning fields, with no
consolidation check. -/
def exportJSON (st : EngineState) : Snapshot :=
  ⟨st.config, st.totalCorpusLength, st.totalDocs, st.documents,
   st.invertedIdx⟩

/-- `importJSON(json)`: validate the blob, then `reset()` (keeping the
preparation tasks), mark learning as started, and load the four fields
verbatim.  The `consolidated` flag, the IDF table and `avgCorpusLength` are
not restored.  The loaded `documents` and `invertedIdx` are the objects
built by `JSON.parse`, which — unlike the engine's own
`Object.create(null)` stores — inherit `Object.prototype`; the `fromJSON`
flag records this, making later reads such as the duplicate check of
`addDoc` see the inherited properties. -/
def importJSON (st : EngineState) (sn : Snapshot) :
    EngineState × Except EngineError Bool :=
  match sn.config with
  | none => (st, .error .invalidArgument)
  | some c =>
    let st1 := (resetLearnings st).1
    ({ st1 with learned := true, config := some c,
                totalCorpusLength := sn.totalCorpusLength,
                totalDocs := sn.totalDocs,
                documents := sn.documents,
                invertedIdx := sn.invertedIdx,
                fromJSON := true },
     .ok true)

/-! ### Specification-side notions used to state the claims -/

/-- Pure version of the inner `search` loop, defined for states whose
posting lists only reference stored documents (so that the `TypeError`
branch of `accumIds` cannot fire). -/
def accumIdsP (st : EngineState) (t : String) :
    List String → List (String × ℚ) → List (String × ℚ)
  | [], res => res
  | id :: rest, res =>
      accumIdsP st t rest
        (setVal res id (termScore st t id + (getVal res id).getD 0))

/-- Pure version of one token of the `search` loop. -/
def accumTokenP (st : EngineState) (res : List (String × ℚ)) (t : String) :
    List (String × ℚ) :=
  match getVal st.invertedIdx t with
  | none => res
  | some ids => accumIdsP st t ids res

/-- Pure version of the full token loop of `search`. -/
def searchTableP (st : EngineState) :
    List String → List (String × ℚ) → List (String × ℚ)
  | [], res => res
  | t :: rest, res => searchTableP st rest (accumTokenP st res t)

/-- Well-formedness of the index of an instance: every posting list is free
of duplicates and every id on it denotes a stored document holding a
frequency entry for the term.  Every instance built through the engine's
own operations satisfies this; it rules out hand-crafted snapshot imports
whose dangling ids would make the real `search` crash or produce `NaN`
scores. -/
def wfIndexB (st : EngineState) : Bool :=
  st.invertedIdx.all (fun p =>
    decide p.2.Nodup &&
      p.2.all (fun id =>
        ((getVal st.documents id).bind
          (fun rec => getVal rec.freq p.1)).isSome))

/-- Every token that tokenizing the fields of `doc` on instance `st` can
produce avoids the `Object.prototype` property names.  On an imported
instance a token naming such a property makes the `updateFreq` loop throw
(see `freqStep`); this predicate carves those documents out. -/
def tokensAvoidProtoB (st : EngineState) (doc : List (String × String)) :
    Bool :=
  doc.all (fun p =>
    match prepareInput st (.str p.2) (some p.1) with
    | .ok v => v.toTokens.all (fun t => decide (t ∉ objectProtoKeys))
    | .error _ => true)

/-- Whether some query token touches document `id` through the inverted
index. -/
def touchedB (st : EngineState) (tkns : List String) (id : String) : Bool :=
  tkns.any (fun t =>
    match getVal st.invertedIdx t with
    | some ids => decide (id ∈ ids)
    | none => false)

/-- The score `search` accumulates for document `id`: the sum over the query
tokens present in the inverted index whose posting list holds `id` of
`documents[id].freq[t] * idf[t]`. -/
def scoreOf (st : EngineState) (tkns : List String) (id : String) : ℚ :=
  (tkns.map (fun t =>
    match getVal st.invertedIdx t with
    | some ids => if id ∈ ids then termScore st t id else 0
    | none => 0)).sum

/-- Document `id` is stored and its frequency map has an entry for term
`t` — the source's notion of the document containing the term. -/
def docHas (docs : List (String × DocRecord)) (id t : String) : Prop :=
  ∃ rec, getVal docs id = some rec ∧ (getVal rec.freq t).isSome = true

/-- Soundness of the inverted index with respect to the document store:
each term's posting list enumerates, without duplicates and as a
subsequence of the document-addition order, exactly the documents whose
frequency map holds the term; terms without a posting list occur in no
document. -/
def invSound (docs : List (String × DocRecord))
    (inv : List (String × List String)) : Prop :=
  ∀ t : String,
    (∀ ids, getVal inv t = some ids →
        ids.Sublist (keysOf docs) ∧ ∀ id, (id ∈ ids ↔ docHas docs id t)) ∧
    (getVal inv t = none → ∀ id, ¬ docHas docs id t)

/-- The invariant maintained while `addDoc` is filling the frequency map of
the new document `id`: the inverted index is sound for the store extended
with the partially built map `freq`. -/
def loopInv (docs0 : List (String × DocRecord)) (id : String)
    (freq : List (String × ℚ)) (inv : List (String × List String)) : Prop :=
  ∀ t : String,
    (∀ ids, getVal inv t = some ids →
        ids.Sublist (keysOf docs0 ++ [id]) ∧
        ∀ j, (j ∈ ids ↔
          ((j = id ∧ (getVal freq t).isSome = true) ∨
           (j ≠ id ∧ docHas docs0 j t)))) ∧
    (getVal inv t = none →
        getVal freq t = none ∧ ∀ j, ¬ docHas docs0 j t)

/-- What any snapshot coming out of a JavaScript engine satisfies: object
keys are unique.  (A JavaScript object cannot hold the same key twice.) -/
structure WFSnapshot (sn : Snapshot) : Prop where
  docKeys : (keysOf sn.documents).Nodup
  invKeys : (keysOf sn.invertedIdx).Nodup
  freqKeys : ∀ p ∈ sn.documents, (keysOf p.2.freq).Nodup

/-- The states reachable through the public operations of one engine
instance running with logarithm routine `rlog`.  Failed calls keep the
state they left behind, so every constructor records the state component of
the call's result, whatever its outcome.  Imported snapshots are restricted
to well-formed ones, since JavaScript objects cannot carry duplicate
keys. -/
inductive Reachable (rlog : ℚ → ℚ) : EngineState → Prop where
  | init : Reachable rlog initState
  | prep (st : EngineState) (tasks : List PrepTask) (field : Option String) :
      Reachable rlog st → Reachable rlog (definePrepTasks st tasks field).1
  | config (st : EngineState) (cfg : RawConfig) :
      Reachable rlog st → Reachable rlog (defineConfig st cfg).1
  | add (st : EngineState) (doc : List (String × String)) (id : String) :
      Reachable rlog st → Reachable rlog (addDoc st doc id).1
  | consol (st : EngineState) :
      Reachable rlog st → Reachable rlog (consolidate rlog st).1
  | reset (st : EngineState) :
      Reachable rlog st → Reachable rlog (resetLearnings st).1
  | importStep (st : EngineState) (sn : Snapshot) :
      Reachable rlog st → WFSnapshot sn →
      Reachable rlog (importJSON st sn).1

/-- The pre-consolidation states built by pipeline definitions,
configuration and `addDoc` calls alone (no consolidation, snapshot import
or reset), the universe of claim C8. -/
inductive Built : EngineState → Prop where
  | init : Built initState
  | prep (st : EngineState) (tasks : List PrepTask) (field : Option String) :
      Built st → Built (definePrepTasks st tasks field).1
  | config (st : EngineState) (cfg : RawConfig) :
      Built st → Built (defineConfig st cfg).1
  | add (st : EngineState) (doc : List (String × String)) (id : String) :
      Built st → Built (addDoc st doc id).1

/-- The state invariant carried through `Reachable`. -/
structure StateInv (st : EngineState) : Prop where
  idf_empty : st.consolidated = false → st.idf = []
  idf_dom : st.consolidated = true →
    ∀ t, (getVal st.idf t).isSome = (getVal st.invertedIdx t).isSome
  docs3 : st.consolidated = true → 3 ≤ st.totalDocs
  learned_of_docs : st.documents ≠ [] → st.learned = true
  learned_of_total : 0 < st.totalDocs → st.learned = true
  inv_nodup : (keysOf st.invertedIdx).Nodup
  config_of_total : 0 < st.totalDocs → st.config.isSome = true
  fromJSON_learned : st.fromJSON = true → st.learned = true

/-- The index invariant carried through `Built`. -/
structure IndexInv (st : EngineState) : Prop where
  notCons : st.consolidated = false
  notJSON : st.fromJSON = false
  docsNodup : (keysOf st.documents).Nodup
  invNodup : (keysOf st.invertedIdx).Nodup
  sound : invSound st.documents st.invertedIdx

/-! ### Concrete instances used by witnesses and counterexamples -/

/-- An example preparation task: treat the whole field text as one token.
(An opaque caller-supplied function; the engine never looks inside.) -/
def exTok : PrepTask := fun v =>
  match v with
  | .str s => .toks [s]
  | .toks l => .toks l

/-- An example logarithm routine standing in for `Math.log`. -/
def exRlog : ℚ → ℚ := fun q => q

/-- A one-field configuration argument. -/
def exCfgT : RawConfig := ⟨[("t", some 1)], none⟩

/-- Fresh instance with the default pipeline `[exTok]`. -/
def exAdd0 : EngineState := (definePrepTasks initState [exTok] none).1

/-- ... then configured with field `t` of weight 1. -/
def exAdd1 : EngineState := (defineConfig exAdd0 exCfgT).1

/-- ... then `addDoc({t: "a"}, "d1")`. -/
def exAdd2 : EngineState := (addDoc exAdd1 [("t", "a")] "d1").1

/-- ... then `addDoc({t: "b"}, "d2")`. -/
def exAdd3 : EngineState := (addDoc exAdd2 [("t", "b")] "d2").1

/-- ... then `addDoc({t: "a"}, "d3")`: three documents, two containing the
term `a`. -/
def exAdd4 : EngineState := (addDoc exAdd3 [("t", "a")] "d3").1

/-- ... then consolidated. -/
def exCons : EngineState := (consolidate exRlog exAdd4).1

/-- A two-field configuration argument, for the missing-field scenario. -/
def exCfg2 : RawConfig := ⟨[("f1", some 1), ("f2", some 1)], none⟩

/-- Instance configured with fields `f1`, `f2` and the default pipeline
`[exTok]`. -/
def exMf : EngineState :=
  (defineConfig (definePrepTasks initState [exTok] none).1 exCfg2).1

/-- Instance with a non-empty default pipeline and an *empty* field-specific
task list for field `t`, then configured: the `prepareInput` selection bug
makes any `addDoc` touching field `t` call an undefined task. -/
def exPipe : EngineState :=
  (defineConfig
    (definePrepTasks (definePrepTasks initState [exTok] none).1 []
      (some "t")).1
    exCfgT).1

/-- Instance with a non-empty default pipeline and an *empty* task list for
the reserved `search` field, configured and filled with three documents. -/
def exQ3 : EngineState :=
  (addDoc
    (addDoc
      (addDoc
        (defineConfig
          (definePrepTasks (definePrepTasks initState [exTok] none).1 []
            (some "search")).1
          exCfgT).1
        [("t", "a")] "d1").1
      [("t", "b")] "d2").1
    [("t", "c")] "d3").1

/-- ... and consolidated: searching it crashes in `prepareInput`. -/
def exQ4 : EngineState := (consolidate exRlog exQ3).1

/-- A configuration with `k1 = -1`, the saturation parameter that destroys
the sign of every frequency at consolidation. -/
def exCfgK : RawConfig := ⟨[("t", some 1)], some ⟨some (-1), none, none⟩⟩

/-- An example preparation task that splits the text `aa` into two `a`
tokens and keeps any other text as one token. -/
def exDup : PrepTask := fun v =>
  match v with
  | .str s => .toks (if s = "aa" then ["a", "a"] else [s])
  | .toks l => .toks l

/-- Three documents under the `k1 = -1` configuration; document `d1` holds
the term `a` twice, so its stored frequency is `2` and its weighted length
`2`. -/
def exK1 : EngineState :=
  (addDoc
    (addDoc
      (addDoc
        (defineConfig (definePrepTasks initState [exDup] none).1 exCfgK).1
        [("t", "aa")] "d1").1
      [("t", "b")] "d2").1
    [("t", "c")] "d3").1

/-- ... consolidated with `k1 = -1`. -/
def exK1c : EngineState := (consolidate exRlog exK1).1

/-- A snapshot of the three-document instance. -/
def exSnap : Snapshot := exportJSON exAdd4

/-! ### Association-list lemmas -/

theorem getVal_nil {β : Type} (key : String) :
    getVal ([] : List (String × β)) key = none := rfl

theorem getVal_cons {β : Type} (k : String) (v : β) (rest : List (String × β))
    (key : String) :
    getVal ((k, v) :: rest) key =
      if k = key then some v else getVal rest key := rfl

theorem getVal_setVal_self {β : Type} (l : List (String × β)) (k : String)
    (v : β) : getVal (setVal l k v) k = some v := by
  induction l with
  | nil => simp [getVal, setVal]
  | cons p rest ih =>
    by_cases h : p.1 = k
    · simp [getVal, setVal, h]
    · simp [getVal, setVal, h, ih]

theorem getVal_setVal_ne {β : Type} (l : List (String × β)) (k k' : String)
    (v : β) (h : k ≠ k') : getVal (setVal l k v) k' = getVal l k' := by
  induction l with
  | nil => simp [getVal, setVal, h]
  | cons p rest ih =>
    by_cases hp : p.1 = k
    · simp [getVal, setVal, hp, h]
    · simp only [setVal, hp, if_false, getVal]
      by_cases hq : p.1 = k'
      · simp [hq]
      · simp [hq, ih]

theorem keysOf_nil {β : Type} : keysOf ([] : List (String × β)) = [] := rfl

theorem keysOf_cons {β : Type} (p : String × β) (rest : List (String × β)) :
    keysOf (p :: rest) = p.1 :: keysOf rest := rfl

theorem keysOf_append {β : Type} (l1 l2 : List (String × β)) :
    keysOf (l1 ++ l2) = keysOf l1 ++ keysOf l2 := by
  simp [keysOf]

theorem getVal_eq_none_iff {β : Type} (l : List (String × β)) (key : String) :
    getVal l key = none ↔ key ∉ keysOf l := by
  induction l with
  | nil => simp [getVal, keysOf]
  | cons p rest ih =>
    by_cases h : p.1 = key
    · simp [getVal, keysOf, h]
    · simp [getVal, keysOf, h, ih, Ne.symm h]

theorem getVal_isSome_iff {β : Type} (l : List (String × β)) (key : String) :
    (getVal l key).isSome = true ↔ key ∈ keysOf l := by
  rw [Option.isSome_iff_ne_none]
  constructor
  · intro h
    by_contra hk
    exact h ((getVal_eq_none_iff l key).2 hk)
  · intro h hn
    exact ((getVal_eq_none_iff l key).1 hn) h

theorem mem_of_getVal {β : Type} (l : List (String × β)) (key : String)
    (v : β) (h : getVal l key = some v) : (key, v) ∈ l := by
  induction l with
  | nil => simp [getVal] at h
  | cons p rest ih =>
    by_cases hp : p.1 = key
    · simp [getVal, hp] at h
      cases p
      simp_all
    · simp [getVal, hp] at h
      exact List.mem_cons_of_mem _ (ih h)

theorem getVal_of_mem_nodup {β : Type} (l : List (String × β)) (key : String)
    (v : β) (hnd : (keysOf l).Nodup) (h : (key, v) ∈ l) :
    getVal l key = some v := by
  induction l with
  | nil => simp at h
  | cons p rest ih =>
    simp only [keysOf_cons, List.nodup_cons] at hnd
    rcases List.mem_cons.1 h with h1 | h1
    · rw [← h1]
      simp [getVal]
    · have hk : p.1 ≠ key := by
        intro he
        exact hnd.1 (he ▸ (by simpa [keysOf] using List.mem_map_of_mem Prod.fst h1))
      simp [getVal, hk, ih hnd.2 h1]

theorem keysOf_setVal_mem {β : Type} (l : List (String × β)) (k : String)
    (v : β) (h : k ∈ keysOf l) : keysOf (setVal l k v) = keysOf l := by
  induction l with
  | nil => simp [keysOf] at h
  | cons p rest ih =>
    by_cases hp : p.1 = k
    · simp [setVal, hp, keysOf]
    · simp only [keysOf_cons, List.mem_cons] at h
      rcases h with h | h
      · exact absurd h.symm hp
      · have hr := ih h
        simp only [keysOf] at hr
        simp [setVal, hp, keysOf, hr]

theorem keysOf_setVal_not_mem {β : Type} (l : List (String × β)) (k : String)
    (v : β) (h : k ∉ keysOf l) : keysOf (setVal l k v) = keysOf l ++ [k] := by
  induction l with
  | nil => simp [setVal, keysOf]
  | cons p rest ih =>
    simp only [keysOf_cons, List.mem_cons] at h
    push_neg at h
    have hr := ih h.2
    simp only [keysOf] at hr
    simp [setVal, Ne.symm h.1, keysOf, hr]

theorem keysNodup_setVal {β : Type} (l : List (String × β)) (k : String)
    (v : β) (h : (keysOf l).Nodup) : (keysOf (setVal l k v)).Nodup := by
  by_cases hk : k ∈ keysOf l
  · rw [keysOf_setVal_mem l k v hk]
    exact h
  · rw [keysOf_setVal_not_mem l k v hk]
    simp [List.nodup_append, h, hk]

theorem getVal_map_val {β γ : Type} (F : β → γ) (l : List (String × β))
    (key : String) :
    getVal (l.map (fun p => (p.1, F p.2))) key = (getVal l key).map F := by
  induction l with
  | nil => simp [getVal]
  | cons p rest ih =>
    by_cases hp : p.1 = key
    · simp [getVal, hp]
    · simp [getVal, hp, ih]

theorem getVal_append {β : Type} (l1 l2 : List (String × β)) (key : String) :
    getVal (l1 ++ l2) key =
      match getVal l1 key with
      | some v => some v
      | none => getVal l2 key := by
  induction l1 with
  | nil => simp [getVal]
  | cons p rest ih =>
    by_cases hp : p.1 = key
    · simp [getVal, hp]
    · simp [getVal, hp, ih]

theorem jsHasProp_false_getVal {β : Type} (p : Bool) (l : List (String × β))
    (key : String) (h : jsHasProp p l key = false) : getVal l key = none := by
  unfold jsHasProp at h
  rw [Bool.or_eq_false_iff] at h
  rcases h with ⟨h1, _⟩
  cases hg : getVal l key with
  | none => rfl
  | some v => rw [hg] at h1; simp at h1

theorem jsHasProp_of_isSome {β : Type} (p : Bool) (l : List (String × β))
    (key : String) (h : (getVal l key).isSome = true) :
    jsHasProp p l key = true := by
  unfold jsHasProp
  rw [h, Bool.true_or]

theorem jsHasProp_not_proto {β : Type} (p : Bool) (l : List (String × β))
    (key : String) (h : key ∉ objectProtoKeys) :
    jsHasProp p l key = (getVal l key).isSome := by
  unfold jsHasProp
  simp [h]

/-! ### Characterizations of the operations' branches -/

theorem addDoc_config_none (st : EngineState) (doc : List (String × String))
    (id : String) (h : st.config = none) :
    addDoc st doc id = (st, .error .invalidState) := by
  simp [addDoc, h]

theorem addDoc_post_consolidation (st : EngineState)
    (doc : List (String × String)) (id : String) (cfg : Config)
    (hc : st.config = some cfg) (hcons : st.consolidated = true) :
    addDoc st doc id = (st, .error .invalidState) := by
  simp [addDoc, hc, hcons]

theorem addDoc_duplicate (st : EngineState) (doc : List (String × String))
    (id : String) (cfg : Config) (hc : st.config = some cfg)
    (hcons : st.consolidated = false)
    (hdup : jsHasProp st.fromJSON st.documents id = true) :
    addDoc st doc id = ({ st with learned := true }, .error .duplicateId) := by
  simp [addDoc, hc, hcons, hdup]

theorem addDoc_run (st : EngineState) (doc : List (String × String))
    (id : String) (cfg : Config) (hc : st.config = some cfg)
    (hcons : st.consolidated = false)
    (hnew : jsHasProp st.fromJSON st.documents id = false) :
    addDoc st doc id =
      (let r := addFields { st with learned := true } doc id cfg.fldWeights
          ⟨[], st.invertedIdx, st.totalCorpusLength, 0⟩
       let st2 : EngineState := { st with
          learned := true,
          documents := st.documents ++ [(id, ⟨r.1.freq, r.1.len⟩)],
          invertedIdx := r.1.inv,
          totalCorpusLength := r.1.tcl }
       match r.2 with
       | .error e => (st2, .error e)
       | .ok _ =>
           ({ st2 with totalDocs := st.totalDocs + 1 },
            .ok (st.totalDocs + 1))) := by
  simp [addDoc, hc, hcons, hnew]

theorem consolidate_small (rlog : ℚ → ℚ) (st : EngineState)
    (h : st.totalDocs < 3) :
    consolidate rlog st = (st, .error .insufficientData) := by
  simp [consolidate, h]

theorem consolidate_config_none (rlog : ℚ → ℚ) (st : EngineState)
    (h3 : ¬ st.totalDocs < 3) (hc : st.config = none) :
    consolidate rlog st = (st, .error .typeError) := by
  simp [consolidate, h3, hc]

theorem consolidate_run (rlog : ℚ → ℚ) (st : EngineState) (cfg : Config)
    (h3 : ¬ st.totalDocs < 3) (hc : st.config = some cfg) :
    consolidate rlog st =
      ({ st with
          documents := consolidateDocs cfg
            (st.totalCorpusLength / (st.totalDocs : ℚ)) st.documents,
          idf := consolidateIdf rlog cfg st.totalDocs st.invertedIdx st.idf,
          avgCorpusLength := st.totalCorpusLength / (st.totalDocs : ℚ),
          consolidated := true },
       .ok true) := by
  simp [consolidate, h3, hc]

theorem consolidate_ok_iff (rlog : ℚ → ℚ) (st : EngineState) :
    (consolidate rlog st).2 = .ok true ↔
      3 ≤ st.totalDocs ∧ st.config.isSome = true := by
  constructor
  · intro h
    by_cases h3 : st.totalDocs < 3
    · rw [consolidate_small rlog st h3] at h
      simp at h
    · cases hc : st.config with
      | none => rw [consolidate_config_none rlog st h3 hc] at h; simp at h
      | some cfg => exact ⟨Nat.le_of_not_lt h3, by simp [hc]⟩
  · rintro ⟨h3, hc⟩
    rcases Option.isSome_iff_exists.1 hc with ⟨cfg, hcfg⟩
    rw [consolidate_run rlog st cfg (Nat.not_lt.2 h3) hcfg]

/-! ### The idf fold -/

theorem getVal_consolidateIdf (rlog : ℚ → ℚ) (cfg : Config) (D : ℕ)
    (inv : List (String × List String)) (idf0 : List (String × ℚ))
    (hnd : (keysOf inv).Nodup) :
    (∀ t ids, getVal inv t = some ids →
        getVal (consolidateIdf rlog cfg D inv idf0) t =
          some (idfValue rlog cfg D ids.length)) ∧
    (∀ t, getVal inv t = none →
        getVal (consolidateIdf rlog cfg D inv idf0) t = getVal idf0 t) := by
  induction inv generalizing idf0 with
  | nil =>
    refine ⟨fun t ids h => by simp [getVal] at h, fun t _ => ?_⟩
    simp [consolidateIdf]
  | cons p rest ih =>
    simp only [keysOf_cons, List.nodup_cons] at hnd
    have hfold : consolidateIdf rlog cfg D (p :: rest) idf0 =
        consolidateIdf rlog cfg D rest
          (setVal idf0 p.1 (idfValue rlog cfg D p.2.length)) := by
      simp [consolidateIdf]
    rcases ih (setVal idf0 p.1 (idfValue rlog cfg D p.2.length)) hnd.2
      with ⟨ihs, ihn⟩
    constructor
    · intro t ids h
      rw [getVal_cons] at h
      by_cases hp : p.1 = t
      · have hres : getVal rest t = none := by
          rw [getVal_eq_none_iff]
          rw [← hp]
          exact hnd.1
        rw [hfold, ihn t hres, ← hp, getVal_setVal_self]
        simp [hp, ← h]
        simp [hp] at h
        rw [h]
      · simp [hp] at h
        rw [hfold]
        exact ihs t ids h
    · intro t h
      rw [getVal_cons] at h
      by_cases hp : p.1 = t
      · simp [hp] at h
      · simp [hp] at h
        rw [hfold, ihn t h, getVal_setVal_ne _ _ _ _ hp]

/-! ### Key-uniqueness of the inverted index through the token loop -/

theorem freqStep_inv_nodup (proto : Bool) (id : String) (w : ℚ)
    (pr : List (String × ℚ) × List (String × List String)) (t : String)
    (h : (keysOf pr.2).Nodup) :
    (keysOf (freqStep proto id w pr t).1.2).Nodup := by
  unfold freqStep
  cases getVal pr.1 t with
  | none =>
    dsimp only
    by_cases hcr : proto = true ∧ t ∈ objectProtoKeys ∧ getVal pr.2 t = none
    · rw [if_pos hcr]; exact h
    · rw [if_neg hcr]; exact keysNodup_setVal _ _ _ h
  | some f => exact h

theorem runFreqSteps_inv_nodup (proto : Bool) (id : String) (w : ℚ)
    (tkns : List String) :
    ∀ pr : List (String × ℚ) × List (String × List String),
      (keysOf pr.2).Nodup →
      (keysOf (runFreqSteps proto id w tkns pr).1.2).Nodup := by
  induction tkns with
  | nil => intro pr h; exact h
  | cons t rest ih =>
    intro pr h
    unfold runFreqSteps
    cases hs : freqStep proto id w pr t with
    | mk pr2 r =>
      have h2 : (keysOf pr2.2).Nodup := by
        have := freqStep_inv_nodup proto id w pr t h
        rw [hs] at this
        exact this
      cases r with
      | error e => exact h2
      | ok u => exact ih pr2 h2

theorem updateFreq_inv_nodup (st : EngineState) (id text : String) (w : ℚ)
    (freq : List (String × ℚ)) (inv : List (String × List String))
    (field : String) (hnd : (keysOf inv).Nodup) :
    (keysOf (updateFreq st id text w freq inv field).1.2).Nodup := by
  unfold updateFreq
  cases hp : prepareInput st (.str text) (some field) with
  | error e => exact hnd
  | ok v =>
    dsimp only
    cases hs : runFreqSteps st.fromJSON id w v.toTokens (freq, inv) with
    | mk p r =>
      have h2 : (keysOf p.2).Nodup := by
        have := runFreqSteps_inv_nodup st.fromJSON id w v.toTokens
          (freq, inv) hnd
        rw [hs] at this
        exact this
      cases r with
      | error e => exact h2
      | ok l => exact h2

theorem addFields_inv_nodup (st : EngineState)
    (doc : List (String × String)) (id : String) :
    ∀ (fields : List (String × ℚ)) (acc : AddAcc),
      (keysOf acc.inv).Nodup →
      (keysOf (addFields st doc id fields acc).1.inv).Nodup := by
  intro fields
  induction fields with
  | nil => intro acc h; exact h
  | cons fw rest ih =>
    intro acc h
    unfold addFields
    cases getVal doc fw.1 with
    | none => exact h
    | some text =>
      dsimp only
      cases hu : updateFreq st id text fw.2 acc.freq acc.inv fw.1 with
      | mk p r =>
        have h2 : (keysOf p.2).Nodup := by
          have := updateFreq_inv_nodup st id text fw.2 acc.freq acc.inv
            fw.1 h
          rw [hu] at this
          exact this
        cases r with
        | error e => exact h2
        | ok l => exact ih ⟨p.1, p.2, acc.tcl + l, acc.len + l⟩ h2

/-! ### The state invariant is preserved by every operation -/

theorem stateInv_init : StateInv initState := by
  refine ⟨fun _ => rfl, fun h => by simp [initState] at h,
    fun h => by simp [initState] at h, fun h => by simp [initState] at h,
    fun h => by simp [initState] at h, by simp [initState, keysOf],
    fun h => by simp [initState] at h, fun h => by simp [initState] at h⟩

theorem stateInv_prep (st : EngineState) (tasks : List PrepTask)
    (field : Option String) (inv : StateInv st) :
    StateInv (definePrepTasks st tasks field).1 := by
  cases field with
  | none =>
    exact ⟨inv.idf_empty, inv.idf_dom, inv.docs3, inv.learned_of_docs,
      inv.learned_of_total, inv.inv_nodup, inv.config_of_total,
      inv.fromJSON_learned⟩
  | some f =>
    exact ⟨inv.idf_empty, inv.idf_dom, inv.docs3, inv.learned_of_docs,
      inv.learned_of_total, inv.inv_nodup, inv.config_of_total,
      inv.fromJSON_learned⟩

theorem defineConfig_state (st : EngineState) (cfg : RawConfig) :
    (defineConfig st cfg).1 = st ∨
    (st.learned = false ∧
      ∃ c, (defineConfig st cfg).1 = { st with config := some c }) := by
  unfold defineConfig
  by_cases hl : st.learned
  · left
    simp [hl]
  · rw [Bool.not_eq_true] at hl
    by_cases he : cfg.fldWeights.isEmpty
    · left
      simp [hl, he]
    · right
      refine ⟨hl, ?_⟩
      cases hb : (buildWeights cfg.fldWeights []).2 with
      | error e =>
        exact ⟨⟨(buildWeights cfg.fldWeights []).1, 1.2, 0.75, 1⟩,
          by simp [hl, he, hb]⟩
      | ok u =>
        exact ⟨⟨(buildWeights cfg.fldWeights []).1,
          (cfg.bm25Params.bind RawParams.k1).getD 1.2,
          (cfg.bm25Params.bind RawParams.b).getD 0.75,
          (cfg.bm25Params.bind RawParams.k).getD 1⟩,
          by simp [hl, he, hb]⟩

theorem stateInv_config (st : EngineState) (cfg : RawConfig)
    (inv : StateInv st) : StateInv (defineConfig st cfg).1 := by
  rcases defineConfig_state st cfg with h | ⟨_, c, h⟩
  · rw [h]
    exact inv
  · rw [h]
    exact ⟨inv.idf_empty, inv.idf_dom, inv.docs3, inv.learned_of_docs,
      inv.learned_of_total, inv.inv_nodup, fun _ => rfl,
      inv.fromJSON_learned⟩

theorem stateInv_add (st : EngineState) (doc : List (String × String))
    (id : String) (inv : StateInv st) : StateInv (addDoc st doc id).1 := by
  cases hc : st.config with
  | none => rw [addDoc_config_none st doc id hc]; exact inv
  | some cfg =>
    by_cases hcons : st.consolidated
    · rw [addDoc_post_consolidation st doc id cfg hc hcons]
      exact inv
    · rw [Bool.not_eq_true] at hcons
      by_cases hdup : jsHasProp st.fromJSON st.documents id = true
      · rw [addDoc_duplicate st doc id cfg hc hcons hdup]
        exact ⟨inv.idf_empty, inv.idf_dom, inv.docs3, fun _ => rfl,
          fun _ => rfl, inv.inv_nodup, inv.config_of_total, fun _ => rfl⟩
      · rw [Bool.not_eq_true] at hdup
        rw [addDoc_run st doc id cfg hc hcons hdup]
        have hinv' :
            (keysOf (addFields { st with learned := true } doc id
              cfg.fldWeights
              ⟨[], st.invertedIdx, st.totalCorpusLength, 0⟩).1.inv).Nodup :=
          addFields_inv_nodup _ doc id cfg.fldWeights _ inv.inv_nodup
        cases hr : (addFields { st with learned := true } doc id
            cfg.fldWeights ⟨[], st.invertedIdx, st.totalCorpusLength, 0⟩).2
          with
        | error e =>
          simp only [hr]
          exact ⟨fun _ => inv.idf_empty hcons,
            fun h => absurd h (by simp [hcons]),
            fun h => absurd h (by simp [hcons]),
            fun _ => rfl, fun _ => rfl, hinv',
            fun _ => by simp [hc], fun _ => rfl⟩
        | ok u =>
          simp only [hr]
          exact ⟨fun _ => inv.idf_empty hcons,
            fun h => absurd h (by simp [hcons]),
            fun h => absurd h (by simp [hcons]),
            fun _ => rfl, fun _ => rfl, hinv',
            fun _ => by simp [hc], fun _ => rfl⟩

theorem stateInv_consolidate (rlog : ℚ → ℚ) (st : EngineState)
    (inv : StateInv st) : StateInv (consolidate rlog st).1 := by
  by_cases h3 : st.totalDocs < 3
  · rw [consolidate_small rlog st h3]
    exact inv
  · cases hc : st.config with
    | none => rw [consolidate_config_none rlog st h3 hc]; exact inv
    | some cfg =>
      rw [consolidate_run rlog st cfg h3 hc]
      have hfold := getVal_consolidateIdf rlog cfg st.totalDocs
        st.invertedIdx st.idf inv.inv_nodup
      refine ⟨fun h => by simp at h, fun _ t => ?_, fun _ => Nat.le_of_not_lt h3,
        fun h => ?_, inv.learned_of_total, inv.inv_nodup,
        inv.config_of_total, inv.fromJSON_learned⟩
      · cases hi : getVal st.invertedIdx t with
        | some ids =>
          rw [hfold.1 t ids hi]
          simp
        | none =>
          rw [hfold.2 t hi]
          by_cases hcons : st.consolidated
          · rw [inv.idf_dom hcons t, hi]
          · rw [Bool.not_eq_true] at hcons
            rw [inv.idf_empty hcons]
            simp [getVal]
      · apply inv.learned_of_docs
        intro hnil
        simp [consolidateDocs, hnil] at h

theorem stateInv_reset (st : EngineState) (_ : StateInv st) :
    StateInv (resetLearnings st).1 := by
  refine ⟨fun _ => rfl, fun h => by simp [resetLearnings] at h,
    fun h => by simp [resetLearnings] at h,
    fun h => by simp [resetLearnings] at h,
    fun h => by simp [resetLearnings] at h,
    by simp [resetLearnings, keysOf],
    fun h => by simp [resetLearnings] at h,
    fun h => by simp [resetLearnings] at h⟩

theorem importJSON_none (st : EngineState) (sn : Snapshot)
    (hc : sn.config = none) :
    importJSON st sn = (st, .error .invalidArgument) := by
  simp [importJSON, hc]

theorem importJSON_run (st : EngineState) (sn : Snapshot) (c : Config)
    (hc : sn.config = some c) :
    importJSON st sn =
      ({ st with
          documents := sn.documents, invertedIdx := sn.invertedIdx,
          idf := [], learned := true, consolidated := false,
          totalDocs := sn.totalDocs,
          totalCorpusLength := sn.totalCorpusLength, avgCorpusLength := 0,
          config := some c, fromJSON := true }, .ok true) := by
  simp [importJSON, resetLearnings, hc]

theorem stateInv_import (st : EngineState) (sn : Snapshot)
    (inv : StateInv st) (hwf : WFSnapshot sn) :
    StateInv (importJSON st sn).1 := by
  cases hc : sn.config with
  | none =>
    rw [importJSON_none st sn hc]
    exact inv
  | some c =>
    rw [importJSON_run st sn c hc]
    exact ⟨fun _ => rfl, fun h => Bool.noConfusion h,
      fun h => Bool.noConfusion h,
      fun _ => rfl, fun _ => rfl, hwf.invKeys, fun _ => rfl, fun _ => rfl⟩

theorem reachable_stateInv (rlog : ℚ → ℚ) (st : EngineState)
    (h : Reachable rlog st) : StateInv st := by
  induction h with
  | init => exact stateInv_init
  | prep st tasks field _ ih => exact stateInv_prep st tasks field ih
  | config st cfg _ ih => exact stateInv_config st cfg ih
  | add st doc id _ ih => exact stateInv_add st doc id ih
  | consol st _ ih => exact stateInv_consolidate rlog st ih
  | reset st _ ih => exact stateInv_reset st ih
  | importStep st sn _ hwf ih => exact stateInv_import st sn ih hwf

/-! ### What errors the field loop can raise, and congruence in the
pipeline-irrelevant state components -/

theorem runTasks_error (pt : List PrepTask) (n : ℕ) (input : JsVal)
    (e : EngineError) (h : runTasks pt n input = .error e) :
    e = .typeError := by
  induction pt generalizing n input with
  | nil =>
    cases n with
    | zero => simp [runTasks] at h
    | succ m =>
      simp [runTasks] at h
      exact h.symm
  | cons f rest ih =>
    cases n with
    | zero => simp [runTasks] at h
    | succ m => exact ih m (f input) h

theorem prepareInput_error (st : EngineState) (input : JsVal)
    (field : Option String) (e : EngineError)
    (h : prepareInput st input field = .error e) : e = .typeError := by
  unfold prepareInput at h
  exact runTasks_error _ _ _ _ h

theorem freqStep_error (proto : Bool) (id : String) (w : ℚ)
    (pr : List (String × ℚ) × List (String × List String)) (t : String)
    (e : EngineError) (h : (freqStep proto id w pr t).2 = .error e) :
    e = .typeError := by
  unfold freqStep at h
  cases hg : getVal pr.1 t with
  | none =>
    rw [hg] at h
    dsimp only at h
    by_cases hcr : proto = true ∧ t ∈ objectProtoKeys ∧ getVal pr.2 t = none
    · rw [if_pos hcr] at h
      simp at h
      exact h.symm
    · rw [if_neg hcr] at h
      simp at h
  | some f => rw [hg] at h; simp at h

theorem runFreqSteps_error (proto : Bool) (id : String) (w : ℚ)
    (tkns : List String) :
    ∀ (pr : List (String × ℚ) × List (String × List String))
      (e : EngineError),
      (runFreqSteps proto id w tkns pr).2 = .error e → e = .typeError := by
  induction tkns with
  | nil => intro pr e h; simp [runFreqSteps] at h
  | cons t rest ih =>
    intro pr e h
    unfold runFreqSteps at h
    cases hs : freqStep proto id w pr t with
    | mk pr2 r =>
      rw [hs] at h
      cases r with
      | error e2 =>
        dsimp only at h
        simp at h
        rw [← h]
        exact freqStep_error proto id w pr t e2 (by rw [hs])
      | ok u => exact ih pr2 e h

theorem updateFreq_error (st : EngineState) (id text : String) (w : ℚ)
    (freq : List (String × ℚ)) (inv : List (String × List String))
    (field : String) (e : EngineError)
    (h : (updateFreq st id text w freq inv field).2 = .error e) :
    e = .typeError := by
  unfold updateFreq at h
  cases hp : prepareInput st (.str text) (some field) with
  | error e2 =>
    rw [hp] at h
    simp at h
    rw [← h]
    exact prepareInput_error st _ _ e2 hp
  | ok v =>
    rw [hp] at h
    dsimp only at h
    cases hs : runFreqSteps st.fromJSON id w v.toTokens (freq, inv) with
    | mk p r =>
      rw [hs] at h
      cases r with
      | error e2 =>
        simp at h
        rw [← h]
        exact runFreqSteps_error st.fromJSON id w v.toTokens (freq, inv) e2
          (by rw [hs])
      | ok l => simp at h

theorem addFields_error (st : EngineState) (doc : List (String × String))
    (id : String) (fields : List (String × ℚ)) (acc : AddAcc)
    (e : EngineError) (h : (addFields st doc id fields acc).2 = .error e) :
    e = .missingField ∨ e = .typeError := by
  induction fields generalizing acc with
  | nil => simp [addFields] at h
  | cons fw rest ih =>
    unfold addFields at h
    cases hg : getVal doc fw.1 with
    | none =>
      rw [hg] at h
      simp at h
      exact Or.inl h.symm
    | some text =>
      rw [hg] at h
      dsimp only at h
      cases hu : updateFreq st id text fw.2 acc.freq acc.inv fw.1 with
      | mk p r =>
        rw [hu] at h
        cases r with
        | error e2 =>
          simp at h
          rw [← h]
          exact Or.inr (updateFreq_error st id text fw.2 acc.freq acc.inv
            fw.1 e2 (by rw [hu]))
        | ok l =>
          dsimp only at h
          exact ih _ h

theorem prepareInput_congr (s1 s2 : EngineState) (input : JsVal)
    (field : Option String) (hp1 : s1.pTasks = s2.pTasks)
    (hp2 : s1.pTaskCount = s2.pTaskCount) (hp3 : s1.flds = s2.flds) :
    prepareInput s1 input field = prepareInput s2 input field := by
  unfold prepareInput
  rw [hp1, hp2, hp3]

theorem freqStep_avoid (p : Bool) (id : String) (w : ℚ)
    (pr : List (String × ℚ) × List (String × List String)) (t : String)
    (ht : t ∉ objectProtoKeys) :
    freqStep p id w pr t = freqStep false id w pr t := by
  unfold freqStep
  cases getVal pr.1 t with
  | none =>
    dsimp only
    rw [if_neg (fun hcr => ht hcr.2.1), if_neg (by simp)]
  | some f => rfl

theorem runFreqSteps_avoid (p : Bool) (id : String) (w : ℚ)
    (tkns : List String) :
    ∀ pr : List (String × ℚ) × List (String × List String),
      (∀ t ∈ tkns, t ∉ objectProtoKeys) →
      runFreqSteps p id w tkns pr = runFreqSteps false id w tkns pr := by
  induction tkns with
  | nil => intro pr _; rfl
  | cons t rest ih =>
    intro pr htk
    unfold runFreqSteps
    rw [freqStep_avoid p id w pr t (htk t (List.mem_cons_self t rest))]
    cases freqStep false id w pr t with
    | mk pr2 r =>
      cases r with
      | error e => rfl
      | ok u =>
        exact ih pr2 (fun t2 ht2 => htk t2 (List.mem_cons_of_mem t ht2))

theorem updateFreq_congr (s1 s2 : EngineState) (id text : String) (w : ℚ)
    (freq : List (String × ℚ)) (inv : List (String × List String))
    (field : String) (hp1 : s1.pTasks = s2.pTasks)
    (hp2 : s1.pTaskCount = s2.pTaskCount) (hp3 : s1.flds = s2.flds)
    (hfj : s1.fromJSON = s2.fromJSON ∨
      (∀ v, prepareInput s2 (.str text) (some field) = .ok v →
        ∀ t ∈ v.toTokens, t ∉ objectProtoKeys)) :
    updateFreq s1 id text w freq inv field =
      updateFreq s2 id text w freq inv field := by
  unfold updateFreq
  rw [prepareInput_congr s1 s2 (.str text) (some field) hp1 hp2 hp3]
  cases hv : prepareInput s2 (.str text) (some field) with
  | error e => rfl
  | ok v =>
    dsimp only
    rcases hfj with hfl | havoid
    · rw [hfl]
    · rw [runFreqSteps_avoid s1.fromJSON id w v.toTokens (freq, inv)
          (havoid v hv),
        runFreqSteps_avoid s2.fromJSON id w v.toTokens (freq, inv)
          (havoid v hv)]

theorem addFields_congr (s1 s2 : EngineState)
    (doc : List (String × String)) (id : String)
    (fields : List (String × ℚ)) (acc : AddAcc)
    (hp1 : s1.pTasks = s2.pTasks) (hp2 : s1.pTaskCount = s2.pTaskCount)
    (hp3 : s1.flds = s2.flds)
    (hfj : s1.fromJSON = s2.fromJSON ∨
      (∀ p ∈ doc, ∀ v, prepareInput s2 (.str p.2) (some p.1) = .ok v →
        ∀ t ∈ v.toTokens, t ∉ objectProtoKeys)) :
    addFields s1 doc id fields acc = addFields s2 doc id fields acc := by
  induction fields generalizing acc with
  | nil => rfl
  | cons fw rest ih =>
    unfold addFields
    cases hg : getVal doc fw.1 with
    | none => rfl
    | some text =>
      dsimp only
      have hfj2 : s1.fromJSON = s2.fromJSON ∨
          (∀ v, prepareInput s2 (.str text) (some fw.1) = .ok v →
            ∀ t ∈ v.toTokens, t ∉ objectProtoKeys) := by
        rcases hfj with hfl | havoid
        · exact Or.inl hfl
        · exact Or.inr (havoid (fw.1, text) (mem_of_getVal doc fw.1 text hg))
      rw [updateFreq_congr s1 s2 id text fw.2 acc.freq acc.inv fw.1
        hp1 hp2 hp3 hfj2]
      cases updateFreq s2 id text fw.2 acc.freq acc.inv fw.1 with
      | mk p r =>
        cases r with
        | error e => rfl
        | ok l => exact ih _

theorem addDoc_outcome_congr (s1 s2 : EngineState)
    (doc : List (String × String)) (id : String)
    (hp1 : s1.pTasks = s2.pTasks) (hp2 : s1.pTaskCount = s2.pTaskCount)
    (hp3 : s1.flds = s2.flds) (hd : s1.documents = s2.documents)
    (hi : s1.invertedIdx = s2.invertedIdx)
    (ht : s1.totalCorpusLength = s2.totalCorpusLength)
    (hn : s1.totalDocs = s2.totalDocs) (hc : s1.config = s2.config)
    (hcons : s1.consolidated = s2.consolidated)
    (hfj : s1.fromJSON = s2.fromJSON ∨
      (id ∉ objectProtoKeys ∧
        ∀ p ∈ doc, ∀ v, prepareInput s2 (.str p.2) (some p.1) = .ok v →
          ∀ t ∈ v.toTokens, t ∉ objectProtoKeys)) :
    (addDoc s1 doc id).2 = (addDoc s2 doc id).2 := by
  cases hcfg : s2.config with
  | none =>
    rw [addDoc_config_none s1 doc id (hc.trans hcfg),
      addDoc_config_none s2 doc id hcfg]
  | some cfg =>
    by_cases hco : s2.consolidated
    · rw [addDoc_post_consolidation s1 doc id cfg (hc.trans hcfg)
        (hcons.trans hco), addDoc_post_consolidation s2 doc id cfg hcfg hco]
    · rw [Bool.not_eq_true] at hco
      have hdupeq : jsHasProp s1.fromJSON s1.documents id =
          jsHasProp s2.fromJSON s2.documents id := by
        rw [hd]
        rcases hfj with hfl | ⟨hidp, _⟩
        · rw [hfl]
        · rw [jsHasProp_not_proto s1.fromJSON s2.documents id hidp,
            jsHasProp_not_proto s2.fromJSON s2.documents id hidp]
      by_cases hdup : jsHasProp s2.fromJSON s2.documents id = true
      · rw [addDoc_duplicate s1 doc id cfg (hc.trans hcfg)
          (hcons.trans hco) (hdupeq.trans hdup),
          addDoc_duplicate s2 doc id cfg hcfg hco hdup]
      · rw [Bool.not_eq_true] at hdup
        rw [addDoc_run s1 doc id cfg (hc.trans hcfg) (hcons.trans hco)
          (hdupeq.trans hdup),
          addDoc_run s2 doc id cfg hcfg hco hdup]
        have hfj2 : s1.fromJSON = s2.fromJSON ∨
            (∀ p ∈ doc, ∀ v,
              prepareInput s2 (.str p.2) (some p.1) = .ok v →
              ∀ t ∈ v.toTokens, t ∉ objectProtoKeys) := by
          rcases hfj with hfl | ⟨_, havoid⟩
          · exact Or.inl hfl
          · exact Or.inr havoid
        have haf : addFields { s1 with learned := true } doc id
            cfg.fldWeights ⟨[], s1.invertedIdx, s1.totalCorpusLength, 0⟩ =
            addFields { s2 with learned := true } doc id cfg.fldWeights
              ⟨[], s2.invertedIdx, s2.totalCorpusLength, 0⟩ := by
          rw [hi, ht]
          exact addFields_congr _ _ doc id cfg.fldWeights _ hp1 hp2 hp3 hfj2
        rw [haf]
        cases h2 : (addFields { s2 with learned := true } doc id
            cfg.fldWeights ⟨[], s2.invertedIdx, s2.totalCorpusLength, 0⟩).2
          with
        | error e => simp [h2]
        | ok u => simp [h2, hn]

theorem set_learned_eq_self (st : EngineState) (h : st.learned = true) :
    ({ st with learned := true } : EngineState) = st := by
  cases st
  simp_all

theorem addDoc_run_error (st : EngineState) (doc : List (String × String))
    (id : String) (cfg : Config) (e : EngineError)
    (hc : st.config = some cfg) (hcons : st.consolidated = false)
    (hnew : jsHasProp st.fromJSON st.documents id = false)
    (he : (addFields { st with learned := true } doc id cfg.fldWeights
        ⟨[], st.invertedIdx, st.totalCorpusLength, 0⟩).2 = .error e) :
    addDoc st doc id =
      ({ st with
          learned := true,
          documents := st.documents ++
            [(id,
              ⟨(addFields { st with learned := true } doc id cfg.fldWeights
                  ⟨[], st.invertedIdx, st.totalCorpusLength, 0⟩).1.freq,
               (addFields { st with learned := true } doc id cfg.fldWeights
                  ⟨[], st.invertedIdx, st.totalCorpusLength, 0⟩).1.len⟩)],
          invertedIdx := (addFields { st with learned := true } doc id
            cfg.fldWeights
            ⟨[], st.invertedIdx, st.totalCorpusLength, 0⟩).1.inv,
          totalCorpusLength := (addFields { st with learned := true } doc id
            cfg.fldWeights
            ⟨[], st.invertedIdx, st.totalCorpusLength, 0⟩).1.tcl },
       .error e) := by
  rw [addDoc_run st doc id cfg hc hcons hnew]
  simp only [he]

theorem addDoc_run_ok (st : EngineState) (doc : List (String × String))
    (id : String) (cfg : Config)
    (hc : st.config = some cfg) (hcons : st.consolidated = false)
    (hnew : jsHasProp st.fromJSON st.documents id = false)
    (he : (addFields { st with learned := true } doc id cfg.fldWeights
        ⟨[], st.invertedIdx, st.totalCorpusLength, 0⟩).2 = .ok ()) :
    addDoc st doc id =
      ({ st with
          learned := true,
          documents := st.documents ++
            [(id,
              ⟨(addFields { st with learned := true } doc id cfg.fldWeights
                  ⟨[], st.invertedIdx, st.totalCorpusLength, 0⟩).1.freq,
               (addFields { st with learned := true } doc id cfg.fldWeights
                  ⟨[], st.invertedIdx, st.totalCorpusLength, 0⟩).1.len⟩)],
          invertedIdx := (addFields { st with learned := true } doc id
            cfg.fldWeights
            ⟨[], st.invertedIdx, st.totalCorpusLength, 0⟩).1.inv,
          totalCorpusLength := (addFields { st with learned := true } doc id
            cfg.fldWeights
            ⟨[], st.invertedIdx, st.totalCorpusLength, 0⟩).1.tcl,
          totalDocs := st.totalDocs + 1 },
       .ok (st.totalDocs + 1)) := by
  rw [addDoc_run st doc id cfg hc hcons hnew]
  simp only [he]

/-! ### Claim C5 -/

/-- C5, counterexample.  `addDoc` on an instance configured with fields
`f1` and `f2`, given a document holding only `f1`, fails with
`MissingField` — but the document store is no longer what it was before the
call: the entry for the rejected id has been created (with the `f1`
frequencies already accumulated), contradicting the claim that a failed
validation leaves the engine state exactly as it was. -/
theorem c5_missing_field_mutates :
    (addDoc exMf [("f1", "x")] "d1").2 = .error .missingField ∧
    exMf.documents = [] ∧
    (addDoc exMf [("f1", "x")] "d1").1.documents ≠ [] := by
  exact ⟨by decide, by decide, by decide⟩

/-- C5 (amended): `addDoc` failing with `DuplicateId` — and every
`InvalidState` rejection — leaves the engine state exactly as it was in
every reachable instance; but a `MissingField` failure is *not* atomic: the
rejected document's store entry, the inverted-index updates and the corpus
length accumulated for the fields processed before the missing one all
persist (see the counterexample). -/
theorem c5_duplicate_failure_atomic (rlog : ℚ → ℚ) (st : EngineState)
    (doc : List (String × String)) (id : String) (hr : Reachable rlog st)
    (hd : (addDoc st doc id).2 = .error .duplicateId) :
    (addDoc st doc id).1 = st := by
  cases hc : st.config with
  | none => rw [addDoc_config_none st doc id hc]
  | some cfg =>
    by_cases hcons : st.consolidated
    · rw [addDoc_post_consolidation st doc id cfg hc hcons]
    · rw [Bool.not_eq_true] at hcons
      by_cases hdup : jsHasProp st.fromJSON st.documents id = true
      · rw [addDoc_duplicate st doc id cfg hc hcons hdup]
        apply set_learned_eq_self
        unfold jsHasProp at hdup
        rw [Bool.or_eq_true] at hdup
        rcases hdup with hown | hproto
        · apply (reachable_stateInv rlog st hr).learned_of_docs
          intro hnil
          rw [hnil] at hown
          simp [getVal] at hown
        · rw [Bool.and_eq_true] at hproto
          exact (reachable_stateInv rlog st hr).fromJSON_learned hproto.1
      · rw [Bool.not_eq_true] at hdup
        cases h2 : (addFields { st with learned := true } doc id
            cfg.fldWeights ⟨[], st.invertedIdx, st.totalCorpusLength, 0⟩).2
          with
        | error e =>
          rw [addDoc_run_error st doc id cfg e hc hcons hdup h2] at hd
          simp at hd
          rcases addFields_error _ doc id cfg.fldWeights _ e h2 with h | h <;>
            simp [h] at hd
        | ok u =>
          cases u
          rw [addDoc_run_ok st doc id cfg hc hcons hdup h2] at hd
          simp at hd

/-- C5 witness: a duplicate-id rejection on a concrete two-document
instance leaves the state unchanged. -/
theorem c5_duplicate_failure_atomic_witness :
    (addDoc exAdd2 [("t", "z")] "d1").2 = .error .duplicateId ∧
    (addDoc exAdd2 [("t", "z")] "d1").1 = exAdd2 := by
  have hr : Reachable exRlog exAdd2 :=
    .add exAdd1 [("t", "a")] "d1"
      (.config exAdd0 exCfgT (.prep initState [exTok] none .init))
  exact ⟨by decide,
    c5_duplicate_failure_atomic exRlog exAdd2 [("t", "z")] "d1" hr
      (by decide)⟩

/-! ### Claim C6 -/

/-- C6, counterexample.  Consolidation is not one-shot: on a concrete
three-document instance the first `consolidate()` succeeds and a second
call succeeds again (recomputing from the already-transformed frequencies),
contradicting the claim that with `totalDocs ≥ 3` it succeeds exactly
once. -/
theorem c6_second_consolidate_succeeds :
    (consolidate exRlog exAdd4).2 = .ok true ∧
    (consolidate exRlog (consolidate exRlog exAdd4).1).2 = .ok true := by
  exact ⟨by decide, by decide⟩

/-- C6 (amended): on every reachable instance, `consolidate()` fails with
`InsufficientData` exactly when fewer than 3 documents were added, leaving
the state (and in particular the still-false consolidated flag) untouched;
with at least 3 documents it succeeds, returns `true`, sets the
consolidated flag (after which `addDoc` fails with `InvalidState`) — but it
is not one-shot: a repeated call succeeds as well. -/
theorem c6_consolidate_lifecycle (rlog : ℚ → ℚ) (st : EngineState)
    (hr : Reachable rlog st) :
    ((consolidate rlog st).2 = .error .insufficientData ↔
      st.totalDocs < 3) ∧
    (st.totalDocs < 3 →
      (consolidate rlog st).1 = st ∧ st.consolidated = false) ∧
    (3 ≤ st.totalDocs →
      (consolidate rlog st).2 = .ok true ∧
      (consolidate rlog st).1.consolidated = true ∧
      (∀ doc id, (addDoc (consolidate rlog st).1 doc id).2 =
        .error .invalidState) ∧
      (consolidate rlog (consolidate rlog st).1).2 = .ok true) := by
  have inv := reachable_stateInv rlog st hr
  have hcfg3 : 3 ≤ st.totalDocs → ∃ cfg, st.config = some cfg := by
    intro h3
    exact Option.isSome_iff_exists.1
      (inv.config_of_total (Nat.lt_of_lt_of_le (by norm_num) h3))
  refine ⟨⟨fun herr => ?_, fun h3 => by rw [consolidate_small rlog st h3]⟩,
    fun h3 => ?_, fun h3 => ?_⟩
  · by_contra hge
    rcases hcfg3 (Nat.le_of_not_lt hge) with ⟨cfg, hc⟩
    rw [consolidate_run rlog st cfg hge hc] at herr
    simp at herr
  · refine ⟨by rw [consolidate_small rlog st h3], ?_⟩
    cases hco : st.consolidated with
    | false => rfl
    | true => exact absurd (inv.docs3 hco) (Nat.not_le_of_lt h3)
  · rcases hcfg3 h3 with ⟨cfg, hc⟩
    have hlt : ¬ st.totalDocs < 3 := Nat.not_lt.2 h3
    have hS := consolidate_run rlog st cfg hlt hc
    have hc2 : (consolidate rlog st).1.config = some cfg := by
      rw [hS]
      exact hc
    have hco2 : (consolidate rlog st).1.consolidated = true := by
      rw [hS]
    have hn2 : ¬ (consolidate rlog st).1.totalDocs < 3 := by
      rw [hS]
      exact hlt
    refine ⟨by rw [hS], hco2, fun doc id => ?_, ?_⟩
    · rw [addDoc_post_consolidation _ doc id cfg hc2 hco2]
    · rw [consolidate_run rlog _ cfg hn2 hc2]

/-- C6 witness: the lifecycle theorem applied to the concrete
three-document instance. -/
theorem c6_consolidate_lifecycle_witness :
    (consolidate exRlog exAdd4).1.consolidated = true ∧
    (∀ doc id, (addDoc (consolidate exRlog exAdd4).1 doc id).2 =
      .error .invalidState) := by
  have hr : Reachable exRlog exAdd4 :=
    .add exAdd3 [("t", "a")] "d3"
      (.add exAdd2 [("t", "b")] "d2"
        (.add exAdd1 [("t", "a")] "d1"
          (.config exAdd0 exCfgT (.prep initState [exTok] none .init))))
  have h := (c6_consolidate_lifecycle exRlog exAdd4 hr).2.2 (by decide)
  exact ⟨h.2.1, h.2.2.1⟩

/-! ### Claim C7 -/

/-- C7: a successful `importJSON` performs a full reset (keeping the
preparation pipelines), marks learning as started — so `defineConfig`
subsequently fails with `InvalidState` — loads the four snapshot fields
verbatim, and leaves the consolidated flag false, so `search` fails with
`InvalidState` until `consolidate()` is run again. -/
theorem c7_import_resets_and_gates (st : EngineState) (sn : Snapshot)
    (hok : (importJSON st sn).2 = .ok true) :
    (importJSON st sn).1.consolidated = false ∧
    (importJSON st sn).1.learned = true ∧
    (importJSON st sn).1.config = sn.config ∧
    (importJSON st sn).1.totalCorpusLength = sn.totalCorpusLength ∧
    (importJSON st sn).1.totalDocs = sn.totalDocs ∧
    (importJSON st sn).1.documents = sn.documents ∧
    (importJSON st sn).1.invertedIdx = sn.invertedIdx ∧
    (importJSON st sn).1.idf = [] ∧
    (importJSON st sn).1.avgCorpusLength = 0 ∧
    (importJSON st sn).1.pTasks = st.pTasks ∧
    (importJSON st sn).1.pTaskCount = st.pTaskCount ∧
    (importJSON st sn).1.flds = st.flds ∧
    (∀ cfg, (defineConfig (importJSON st sn).1 cfg).2 =
      .error .invalidState) ∧
    (∀ text limit, search (importJSON st sn).1 text limit =
      .error .invalidState) := by
  cases hc : sn.config with
  | none =>
    rw [importJSON_none st sn hc] at hok
    simp at hok
  | some c =>
    have hS := importJSON_run st sn c hc
    rw [hS]
    refine ⟨rfl, rfl, rfl, rfl, rfl, rfl, rfl, rfl, rfl, rfl, rfl, rfl,
      fun cfg => ?_, fun text limit => ?_⟩
    · simp [defineConfig]
    · simp [search]

/-- C7 witness: importing the snapshot of the concrete three-document
instance into a fresh engine. -/
theorem c7_import_resets_and_gates_witness :
    (importJSON initState exSnap).2 = .ok true ∧
    (importJSON initState exSnap).1.consolidated = false ∧
    (importJSON initState exSnap).1.documents = exSnap.documents := by
  have h := c7_import_resets_and_gates initState exSnap (by decide)
  exact ⟨by decide, h.1, h.2.2.2.2.2.1⟩

/-! ### Claim C9 -/

theorem tokensAvoidProtoB_spec (st : EngineState)
    (doc : List (String × String)) (h : tokensAvoidProtoB st doc = true) :
    ∀ p ∈ doc, ∀ v, prepareInput st (.str p.2) (some p.1) = .ok v →
      ∀ t ∈ v.toTokens, t ∉ objectProtoKeys := by
  intro p hp v hv t ht
  unfold tokensAvoidProtoB at h
  rw [List.all_eq_true] at h
  have h2 := h p hp
  rw [hv] at h2
  dsimp only at h2
  rw [List.all_eq_true] at h2
  exact of_decide_eq_true (h2 t ht)

/-- C9, counterexample.  On the concrete three-document instance, `addDoc`
with the fresh id `"toString"` succeeds (returning the new count 4); after
importing the instance's own exported snapshot, the very same call fails
with `DuplicateId`: the imported document store is a `JSON.parse` object,
so it inherits `Object.prototype`, and the duplicate test
`documents["toString"] !== undefined` finds the inherited function.  The
claim that `addDocument` behaves identically after the round trip is
therefore false. -/
theorem c9_prototype_breaks_round_trip :
    (addDoc exAdd4 [("t", "x")] "toString").2 = .ok 4 ∧
    (addDoc (importJSON exAdd4 (exportJSON exAdd4)).1
        [("t", "x")] "toString").2 = .error .duplicateId :=
  ⟨by decide, by decide⟩

/-- C9 (amended): on every pre-consolidation instance, importing the
instance's own exported snapshot yields an instance on which `addDoc` has
exactly the same outcome — the same returned document count on success and
the same `DuplicateId` or `MissingField` rejection — for every subsequent
document and id, provided neither the id nor any token produced for the
document's fields names an `Object.prototype` property: the imported
stores inherit `Object.prototype`, so such an id is reported as a
duplicate and such a token makes the token loop throw (see the
counterexample).  A failed import, possible only when no configuration was
ever defined, leaves the instance unchanged, so the outcomes then agree
unconditionally. -/
theorem c9_snapshot_round_trip (st : EngineState)
    (doc : List (String × String)) (id : String)
    (hcons : st.consolidated = false)
    (hid : id ∉ objectProtoKeys)
    (htok : tokensAvoidProtoB st doc = true) :
    (addDoc (importJSON st (exportJSON st)).1 doc id).2 =
      (addDoc st doc id).2 := by
  cases hc : st.config with
  | none =>
    have hsn : (exportJSON st).config = none := hc
    rw [importJSON_none st (exportJSON st) hsn]
  | some c =>
    have hsn : (exportJSON st).config = some c := hc
    rw [importJSON_run st (exportJSON st) c hsn]
    exact addDoc_outcome_congr _ st doc id rfl rfl rfl rfl rfl rfl rfl
      hc.symm hcons.symm
      (Or.inr ⟨hid, tokensAvoidProtoB_spec st doc htok⟩)

/-- C9 witness: the round trip on the concrete three-document instance,
checked on a fresh document whose id and token are ordinary strings. -/
theorem c9_snapshot_round_trip_witness :
    exAdd4.consolidated = false ∧ "d4" ∉ objectProtoKeys ∧
    tokensAvoidProtoB exAdd4 [("t", "c")] = true ∧
    (addDoc (importJSON exAdd4 (exportJSON exAdd4)).1 [("t", "c")] "d4").2 =
      (addDoc exAdd4 [("t", "c")] "d4").2 :=
  ⟨by decide, by decide, by decide,
    c9_snapshot_round_trip exAdd4 [("t", "c")] "d4" (by decide) (by decide)
      (by decide)⟩

/-! ### Claim C1 -/

theorem jsSign_mul_abs (s x : ℚ) (hx : x ≠ 0) (hs : s = 1 ∨ s = -1) :
    jsSign (s * |x|) = s := by
  have hpos : 0 < |x| := abs_pos.2 hx
  rcases hs with h | h <;> rw [h] <;> unfold jsSign
  · rw [one_mul]
    rw [if_pos hpos]
  · have hneg : -1 * |x| < 0 := by
      rw [neg_one_mul]
      exact neg_neg_of_pos hpos
    rw [if_neg (by exact not_lt_of_gt hneg), if_pos hneg]

theorem jsSign_consFreq (cfg : Config) (nf f : ℚ) (h1 : cfg.k1 + 1 ≠ 0)
    (h2 : cfg.k1 * nf + f ≠ 0) : jsSign (consFreq cfg nf f) = jsSign f := by
  by_cases hf : f = 0
  · rw [hf]
    unfold consFreq jsSign
    simp
  · have hx : f * (cfg.k1 + 1) / (cfg.k1 * nf + f) ≠ 0 :=
      div_ne_zero (mul_ne_zero hf h1) h2
    unfold consFreq
    have hs : jsSign f = 1 ∨ jsSign f = -1 := by
      unfold jsSign
      rcases lt_trichotomy 0 f with h | h | h
      · rw [if_pos h]
        exact Or.inl rfl
      · exact absurd h.symm hf
      · rw [if_neg (by exact not_lt_of_gt h), if_pos h]
        exact Or.inr rfl
    rw [jsSign_mul_abs (jsSign f) _ hx hs]

/-- C1 (amended): on any instance holding a configuration, a successful
`consolidate()` replaces, for each stored document and each term of its
frequency map, the stored frequency `f` by
`sign(f) * |f * (k1 + 1) / (k1 * normFactor + f)|` with
`normFactor = (1 - b) + b * (docLength / avgCorpusLength)` and
`avgCorpusLength = totalCorpusLength / totalDocs`, leaving lengths and the
store's domain unchanged.  The sign of a stored frequency is preserved
provided `k1 + 1 ≠ 0` and the transform's denominator is nonzero; it is
*not* preserved in general — with `k1 = -1` every frequency collapses to
`0` (see the counterexample). -/
theorem c1_consolidate_frequencies (rlog : ℚ → ℚ) (st : EngineState)
    (cfg : Config) (hc : st.config = some cfg)
    (hok : (consolidate rlog st).2 = .ok true) :
    (∀ id rec, getVal st.documents id = some rec →
      getVal (consolidate rlog st).1.documents id =
        some ⟨rec.freq.map (fun q =>
          (q.1, jsSign q.2 *
            |q.2 * (cfg.k1 + 1) /
              (cfg.k1 * normFactor cfg
                (st.totalCorpusLength / (st.totalDocs : ℚ)) rec.length +
               q.2)|)), rec.length⟩) ∧
    (∀ id, getVal st.documents id = none →
      getVal (consolidate rlog st).1.documents id = none) ∧
    (∀ len f, cfg.k1 + 1 ≠ 0 →
      cfg.k1 * normFactor cfg (st.totalCorpusLength / (st.totalDocs : ℚ))
          len + f ≠ 0 →
      jsSign (consFreq cfg (normFactor cfg
        (st.totalCorpusLength / (st.totalDocs : ℚ)) len) f) = jsSign f) := by
  have h3 : ¬ st.totalDocs < 3 := by
    intro hlt
    rw [consolidate_small rlog st hlt] at hok
    simp at hok
  have hS := consolidate_run rlog st cfg h3 hc
  refine ⟨fun id rec hrec => ?_, fun id hrec => ?_, fun len f h1 h2 =>
    jsSign_consFreq cfg _ f h1 h2⟩
  · rw [hS]
    show getVal (consolidateDocs cfg _ st.documents) id = _
    unfold consolidateDocs
    rw [getVal_map_val (consDoc cfg (st.totalCorpusLength / (st.totalDocs : ℚ)))
      st.documents id, hrec]
    simp [consDoc, consFreq]
  · rw [hS]
    show getVal (consolidateDocs cfg _ st.documents) id = _
    unfold consolidateDocs
    rw [getVal_map_val (consDoc cfg (st.totalCorpusLength / (st.totalDocs : ℚ)))
      st.documents id, hrec]
    rfl

/-- C1 witness: the frequency transform evaluated on the concrete
three-document instance at document `d1`. -/
theorem c1_consolidate_frequencies_witness :
    exAdd4.config = some ⟨[("t", 1)], 1.2, 0.75, 1⟩ ∧
    (consolidate exRlog exAdd4).2 = .ok true ∧
    getVal exAdd4.documents "d1" = some ⟨[("a", 1)], 1⟩ ∧
    getVal (consolidate exRlog exAdd4).1.documents "d1" =
      some ⟨[(("a" : String), (1 : ℚ))].map (fun q =>
        (q.1, jsSign q.2 *
          |q.2 * ((⟨[("t", 1)], 1.2, 0.75, 1⟩ : Config).k1 + 1) /
            ((⟨[("t", 1)], 1.2, 0.75, 1⟩ : Config).k1 *
              normFactor ⟨[("t", 1)], 1.2, 0.75, 1⟩
                (exAdd4.totalCorpusLength / (exAdd4.totalDocs : ℚ)) 1 +
             q.2)|)), (1 : ℚ)⟩ := by
  have hc : exAdd4.config = some ⟨[("t", 1)], 1.2, 0.75, 1⟩ := rfl
  have hd : getVal exAdd4.documents "d1" = some ⟨[("a", 1)], 1⟩ := by
    norm_num [exAdd4, exAdd3, exAdd2, exAdd1, exAdd0, defineConfig,
      definePrepTasks, addDoc, addFields, updateFreq, prepareInput,
      runTasks, freqStep, runFreqSteps, jsHasProp, objectProtoKeys,
      getVal, setVal, exTok, exCfgT, initState,
      buildWeights, JsVal.toTokens]
  exact ⟨hc, by decide, hd,
    (c1_consolidate_frequencies exRlog exAdd4 ⟨[("t", 1)], 1.2, 0.75, 1⟩ hc
      (by decide)).1 "d1" ⟨[("a", 1)], 1⟩ hd⟩

/-- C1 counterexample: with the admissible configuration `k1 = -1`, the
stored frequency of term `a` in document `d1` is `2` before consolidation
(sign `1`) and `0` after it (sign `0`): consolidation does not preserve the
sign of every stored frequency. -/
theorem c1_sign_not_preserved :
    ((getVal exK1.documents "d1").bind
      (fun rec => getVal rec.freq "a")).map jsSign = some 1 ∧
    ((getVal exK1c.documents "d1").bind
      (fun rec => getVal rec.freq "a")).map jsSign = some 0 := by
  constructor
  · norm_num [exK1, defineConfig, definePrepTasks, addDoc, addFields,
      updateFreq, prepareInput, runTasks, freqStep, getVal, setVal, exDup,
      exCfgK, initState, buildWeights, JsVal.toTokens, jsSign]
  · norm_num [exK1c, exK1, exRlog, consolidate, consolidateDocs, consDoc,
      consFreq, normFactor, consolidateIdf, idfValue, defineConfig,
      definePrepTasks, addDoc, addFields, updateFreq, prepareInput,
      runTasks, freqStep, getVal, setVal, exDup, exCfgK, initState,
      buildWeights, JsVal.toTokens, jsSign]

/-! ### Claim C2 -/

/-- C2: on every reachable instance, after a successful `consolidate()` the
IDF table maps every term of the inverted index to
`log(((totalDocs - n) / totalDocs) + k)`, where `n` is the length of the
term's id list and `k` the configured smoothing parameter, and holds no
entry for any other term. -/
theorem c2_idf_table (rlog : ℚ → ℚ) (st : EngineState)
    (hr : Reachable rlog st)
    (hok : (consolidate rlog st).2 = .ok true) :
    ∃ cfg, st.config = some cfg ∧
      (∀ t ids, getVal st.invertedIdx t = some ids →
        getVal (consolidate rlog st).1.idf t =
          some (rlog ((((st.totalDocs : ℚ) - (ids.length : ℚ)) /
            (st.totalDocs : ℚ)) + cfg.k))) ∧
      (∀ t, getVal st.invertedIdx t = none →
        getVal (consolidate rlog st).1.idf t = none) := by
  have inv := reachable_stateInv rlog st hr
  rcases consolidate_ok_iff rlog st |>.1 hok with ⟨h3, hcs⟩
  rcases Option.isSome_iff_exists.1 hcs with ⟨cfg, hc⟩
  have hlt : ¬ st.totalDocs < 3 := Nat.not_lt.2 h3
  have hS := consolidate_run rlog st cfg hlt hc
  have hfold := getVal_consolidateIdf rlog cfg st.totalDocs st.invertedIdx
    st.idf inv.inv_nodup
  refine ⟨cfg, hc, fun t ids hi => ?_, fun t hi => ?_⟩
  · rw [hS]
    show getVal (consolidateIdf rlog cfg st.totalDocs st.invertedIdx st.idf)
      t = _
    rw [hfold.1 t ids hi]
    rfl
  · rw [hS]
    show getVal (consolidateIdf rlog cfg st.totalDocs st.invertedIdx st.idf)
      t = none
    rw [hfold.2 t hi]
    by_cases hco : st.consolidated
    · have := inv.idf_dom hco t
      rw [hi] at this
      simp at this
      exact this
    · rw [Bool.not_eq_true] at hco
      rw [inv.idf_empty hco]
      rfl

/-- C2 witness: the idf theorem applied to the concrete three-document
instance. -/
theorem c2_idf_table_witness :
    Reachable exRlog exAdd4 ∧
    (consolidate exRlog exAdd4).2 = .ok true ∧
    (∃ cfg, exAdd4.config = some cfg ∧
      (∀ t ids, getVal exAdd4.invertedIdx t = some ids →
        getVal (consolidate exRlog exAdd4).1.idf t =
          some (exRlog ((((exAdd4.totalDocs : ℚ) - (ids.length : ℚ)) /
            (exAdd4.totalDocs : ℚ)) + cfg.k))) ∧
      (∀ t, getVal exAdd4.invertedIdx t = none →
        getVal (consolidate exRlog exAdd4).1.idf t = none)) := by
  have hr : Reachable exRlog exAdd4 :=
    .add exAdd3 [("t", "a")] "d3"
      (.add exAdd2 [("t", "b")] "d2"
        (.add exAdd1 [("t", "a")] "d1"
          (.config exAdd0 exCfgT (.prep initState [exTok] none .init))))
  exact ⟨hr, by decide, c2_idf_table exRlog exAdd4 hr (by decide)⟩

/-! ### The search accumulation -/

theorem wfIndex_posting (st : EngineState) (h : wfIndexB st = true)
    (t : String) (ids : List String)
    (hi : getVal st.invertedIdx t = some ids) :
    ids.Nodup ∧ ∀ id ∈ ids,
      ((getVal st.documents id).bind
        (fun rec => getVal rec.freq t)).isSome = true := by
  have hmem := mem_of_getVal st.invertedIdx t ids hi
  unfold wfIndexB at h
  rw [List.all_eq_true] at h
  have hp := h (t, ids) hmem
  simp only [Bool.and_eq_true, decide_eq_true_eq, List.all_eq_true] at hp
  exact ⟨hp.1, fun id hid => hp.2 id hid⟩

theorem accumIds_eq_pure (st : EngineState) (t : String)
    (ids : List String)
    (hids : ∀ id ∈ ids,
      ((getVal st.documents id).bind
        (fun rec => getVal rec.freq t)).isSome = true) :
    ∀ res, accumIds st t ids res = .ok (accumIdsP st t ids res) := by
  induction ids with
  | nil => intro res; rfl
  | cons id rest ih =>
    intro res
    have hdoc : (getVal st.documents id).isSome = true := by
      have := hids id (List.mem_cons_self id rest)
      cases hd : getVal st.documents id with
      | none => rw [hd] at this; simp at this
      | some r => rfl
    rcases Option.isSome_iff_exists.1 hdoc with ⟨r, hr⟩
    unfold accumIds accumIdsP
    rw [hr]
    exact ih (fun j hj => hids j (List.mem_cons_of_mem id hj)) _

theorem searchTable_eq_pure (st : EngineState) (h : wfIndexB st = true) :
    ∀ (tkns : List String) (res : List (String × ℚ)),
      searchTable st tkns res = .ok (searchTableP st tkns res) := by
  intro tkns
  induction tkns with
  | nil => intro res; rfl
  | cons t rest ih =>
    intro res
    unfold searchTable searchTableP accumToken accumTokenP
    cases hi : getVal st.invertedIdx t with
    | none => exact ih res
    | some ids =>
      dsimp only
      rw [accumIds_eq_pure st t ids (wfIndex_posting st h t ids hi).2 res]
      exact ih _

theorem getVal_accumIdsP (st : EngineState) (t : String)
    (ids : List String) (hnd : ids.Nodup) :
    ∀ (res : List (String × ℚ)) (j : String),
      getVal (accumIdsP st t ids res) j =
        if j ∈ ids then some (termScore st t j + (getVal res j).getD 0)
        else getVal res j := by
  induction ids with
  | nil =>
    intro res j
    simp [accumIdsP]
  | cons i rest ih =>
    intro res j
    simp only [List.nodup_cons] at hnd
    unfold accumIdsP
    by_cases hj : j = i
    · rw [hj]
      rw [ih hnd.2 _ i, if_neg hnd.1, getVal_setVal_self]
      simp
    · rw [ih hnd.2 _ j]
      by_cases hr : j ∈ rest
      · simp [hr, getVal_setVal_ne res i j _ (fun he => hj he.symm)]
      · simp [hr, hj, getVal_setVal_ne res i j _ (fun he => hj he.symm)]

theorem keysNodup_accumIdsP (st : EngineState) (t : String)
    (ids : List String) :
    ∀ res : List (String × ℚ), (keysOf res).Nodup →
      (keysOf (accumIdsP st t ids res)).Nodup := by
  induction ids with
  | nil => intro res h; exact h
  | cons i rest ih =>
    intro res h
    exact ih _ (keysNodup_setVal res i _ h)

theorem keysNodup_searchTableP (st : EngineState) (tkns : List String) :
    ∀ res : List (String × ℚ), (keysOf res).Nodup →
      (keysOf (searchTableP st tkns res)).Nodup := by
  induction tkns with
  | nil => intro res h; exact h
  | cons t rest ih =>
    intro res h
    unfold searchTableP accumTokenP
    cases getVal st.invertedIdx t with
    | none => exact ih res h
    | some ids => exact ih _ (keysNodup_accumIdsP st t ids res h)

theorem scoreOf_zero_of_not_touched (st : EngineState) (tkns : List String)
    (id : String) (h : touchedB st tkns id = false) :
    scoreOf st tkns id = 0 := by
  induction tkns with
  | nil => rfl
  | cons t rest ih =>
    unfold touchedB at h ih
    simp only [List.any_cons, Bool.or_eq_false_iff] at h
    unfold scoreOf at ih ⊢
    simp only [List.map_cons, List.sum_cons]
    rw [ih h.2]
    cases hi : getVal st.invertedIdx t with
    | none => simp
    | some ids =>
      rw [hi] at h
      have : id ∉ ids := by
        intro hmem
        simp [hmem] at h
      simp [this]

theorem getVal_searchTableP (st : EngineState)
    (hwf : wfIndexB st = true) (tkns : List String) :
    ∀ (res : List (String × ℚ)) (id : String),
      getVal (searchTableP st tkns res) id =
        if touchedB st tkns id = true
        then some (scoreOf st tkns id + (getVal res id).getD 0)
        else getVal res id := by
  induction tkns with
  | nil =>
    intro res id
    simp [searchTableP, touchedB]
  | cons t rest ih =>
    intro res id
    unfold searchTableP accumTokenP
    cases hi : getVal st.invertedIdx t with
    | none =>
      rw [ih res id]
      have htb : touchedB st (t :: rest) id = touchedB st rest id := by
        unfold touchedB
        simp [hi]
      have hsc : scoreOf st (t :: rest) id = scoreOf st rest id := by
        unfold scoreOf
        simp [hi]
      rw [htb, hsc]
    | some ids =>
      have hnd := (wfIndex_posting st hwf t ids hi).1
      rw [ih _ id, getVal_accumIdsP st t ids hnd res id]
      have hsc : scoreOf st (t :: rest) id =
          (if id ∈ ids then termScore st t id else 0) +
            scoreOf st rest id := by
        unfold scoreOf
        simp [hi]
      have htb : touchedB st (t :: rest) id =
          (decide (id ∈ ids) || touchedB st rest id) := by
        unfold touchedB
        simp [hi]
      by_cases hmem : id ∈ ids
      · by_cases htr : touchedB st rest id = true
        · rw [if_pos htr, htb, hsc]
          simp [hmem, htr]
          ring
        · rw [Bool.not_eq_true] at htr
          rw [htr, if_neg (by simp), if_pos hmem, htb, hsc,
            scoreOf_zero_of_not_touched st rest id htr]
          simp [hmem, htr]
      · rw [if_neg hmem, htb, hsc]
        by_cases htr : touchedB st rest id = true
        · rw [htr, if_pos (by simp [htr])]
          simp [hmem]
        · rw [Bool.not_eq_true] at htr
          rw [htr, if_neg (by simp [hmem, htr]),
            if_neg (by simp [hmem, htr])]

theorem search_run (st : EngineState) (text : String) (limit : Option ℤ)
    (v : JsVal) (hcons : st.consolidated = true)
    (hprep : prepareInput st (.str text) (some "search") = .ok v)
    (hwf : wfIndexB st = true) :
    search st text limit =
      .ok ((List.insertionSort byScoreDesc
        (searchTableP st v.toTokens [])).take (effLimit limit)) := by
  unfold search
  rw [hcons, hprep]
  simp [searchTable_eq_pure st hwf]

/-! ### Claim C3 -/

/-- C3 (amended): on every consolidated instance whose reserved `search`
pipeline selection is well-formed (tokenization succeeds — a field-specific
*empty* task list combined with a non-empty default pipeline makes it
throw, see the counterexample) and whose index references only stored
documents, `search` succeeds; its result is the limit-truncated prefix of a
descending-score ordering of the score table, and that table holds exactly
the documents touched by some query token, each paired with the sum over
the query tokens present in the inverted index of
`consolidatedFrequency(id, t) * idf[t]`; untouched documents are absent
rather than scored zero. -/
theorem c3_search_results (st : EngineState) (text : String)
    (limit : Option ℤ) (v : JsVal) (hcons : st.consolidated = true)
    (hprep : prepareInput st (.str text) (some "search") = .ok v)
    (hwf : wfIndexB st = true) :
    search st text limit =
      .ok ((List.insertionSort byScoreDesc
        (searchTableP st v.toTokens [])).take (effLimit limit)) ∧
    (∀ id s, (id, s) ∈ searchTableP st v.toTokens [] ↔
      (touchedB st v.toTokens id = true ∧
        s = scoreOf st v.toTokens id)) ∧
    List.Sorted byScoreDesc ((List.insertionSort byScoreDesc
      (searchTableP st v.toTokens [])).take (effLimit limit)) ∧
    (∀ p, p ∈ (List.insertionSort byScoreDesc
        (searchTableP st v.toTokens [])).take (effLimit limit) →
      p ∈ searchTableP st v.toTokens []) ∧
    (List.insertionSort byScoreDesc (searchTableP st v.toTokens [])).Perm
      (searchTableP st v.toTokens []) := by
  have hnd : (keysOf (searchTableP st v.toTokens [])).Nodup :=
    keysNodup_searchTableP st v.toTokens [] (by simp [keysOf])
  refine ⟨search_run st text limit v hcons hprep hwf,
    fun id s => ⟨fun hmem => ?_, fun hts => ?_⟩, ?_, fun p hp => ?_,
    List.perm_insertionSort byScoreDesc _⟩
  · have hget := getVal_of_mem_nodup _ id s hnd hmem
    rw [getVal_searchTableP st hwf v.toTokens [] id] at hget
    by_cases ht : touchedB st v.toTokens id = true
    · rw [if_pos ht] at hget
      simp [getVal] at hget
      exact ⟨ht, by rw [← hget]⟩
    · rw [if_neg ht] at hget
      simp [getVal] at hget
  · have hget : getVal (searchTableP st v.toTokens []) id = some s := by
      rw [getVal_searchTableP st hwf v.toTokens [] id, if_pos hts.1]
      simp [getVal, hts.2]
    exact mem_of_getVal _ id s hget
  · exact List.Pairwise.sublist (List.take_sublist _ _)
      (List.sorted_insertionSort byScoreDesc _)
  · have := List.take_subset (effLimit limit)
      (List.insertionSort byScoreDesc (searchTableP st v.toTokens []))
    exact (List.mem_insertionSort byScoreDesc).1 (this hp)

/-- C3 counterexample: a consolidated instance whose reserved `search`
pipeline was defined with an empty task list while a non-empty default
pipeline exists.  `search` throws a raw `TypeError` (the undefined-task
call in `prepareInput`), contradicting the claim that search on a
consolidated instance never throws. -/
theorem c3_search_throws :
    exQ4.consolidated = true ∧
    search exQ4 "a" none = .error .typeError := by
  exact ⟨by decide, by decide⟩

/-- C3 witness: the search theorem applied to the concrete consolidated
three-document instance with query `a`. -/
theorem c3_search_results_witness :
    exCons.consolidated = true ∧
    prepareInput exCons (.str "a") (some "search") =
      .ok (JsVal.toks ["a"]) ∧
    wfIndexB exCons = true ∧
    (search exCons "a" none =
      .ok ((List.insertionSort byScoreDesc
        (searchTableP exCons (JsVal.toks ["a"]).toTokens [])).take
          (effLimit none)) ∧
    (∀ id s, (id, s) ∈ searchTableP exCons (JsVal.toks ["a"]).toTokens [] ↔
      (touchedB exCons (JsVal.toks ["a"]).toTokens id = true ∧
        s = scoreOf exCons (JsVal.toks ["a"]).toTokens id)) ∧
    List.Sorted byScoreDesc ((List.insertionSort byScoreDesc
      (searchTableP exCons (JsVal.toks ["a"]).toTokens [])).take
        (effLimit none)) ∧
    (∀ p, p ∈ (List.insertionSort byScoreDesc
        (searchTableP exCons (JsVal.toks ["a"]).toTokens [])).take
          (effLimit none) →
      p ∈ searchTableP exCons (JsVal.toks ["a"]).toTokens []) ∧
    (List.insertionSort byScoreDesc
      (searchTableP exCons (JsVal.toks ["a"]).toTokens [])).Perm
        (searchTableP exCons (JsVal.toks ["a"]).toTokens [])) := by
  exact ⟨by decide, by decide, by decide,
    c3_search_results exCons "a" none (JsVal.toks ["a"]) (by decide)
      (by decide) (by decide)⟩

/-! ### Claim C4 -/

/-- C4 counterexample: on the concrete consolidated instance where two
documents match the query, `search(text, 0)` returns *two* results, not at
most one: a limit of `0` is falsy in `limit || 10`, so it falls back to the
default of 10 instead of being clamped to 1. -/
theorem c4_zero_limit_not_clamped :
    search exCons "a" (some 0) = .ok [("d1", 4/3), ("d3", 4/3)] := by
  simp +decide [exCons, exAdd4, exAdd3, exAdd2, exAdd1, exAdd0, exCfgT,
    exTok, exRlog, initState, consolidate, consolidateDocs, consDoc,
    consFreq, normFactor, consolidateIdf, idfValue, addDoc, addFields,
    updateFreq, prepareInput, runTasks, freqStep, runFreqSteps, jsHasProp,
    objectProtoKeys, defineConfig,
    definePrepTasks, buildWeights, search, searchTable, accumToken,
    accumIds, termScore, getVal, setVal, JsVal.toTokens, jsSign, effLimit,
    List.insertionSort, List.orderedInsert, byScoreDesc]
  norm_num

/-- C4 (amended): `search` truncates its sorted result list to
`max(limit, 1)` entries for a *provided, nonzero* limit, and to 10 when the
limit is absent — or when it is `0`, which the source's `limit || 10`
treats like an absent limit; so `search(text, -5)` returns at most 1
result, but `search(text, 0)` returns up to 10. -/
theorem c4_limit_truncation (st : EngineState) (text : String)
    (limit : Option ℤ) (v : JsVal) (hcons : st.consolidated = true)
    (hprep : prepareInput st (.str text) (some "search") = .ok v)
    (hwf : wfIndexB st = true) :
    (∃ res, search st text limit = .ok res ∧
      res.length =
        min (effLimit limit) (searchTableP st v.toTokens []).length) ∧
    effLimit none = 10 ∧ effLimit (some 0) = 10 ∧
    (∀ l : ℤ, l ≠ 0 → effLimit (some l) = (max l 1).toNat) := by
  refine ⟨⟨_, search_run st text limit v hcons hprep hwf, ?_⟩, rfl, rfl,
    fun l hl => ?_⟩
  · rw [List.length_take,
      (List.perm_insertionSort byScoreDesc
        (searchTableP st v.toTokens [])).length_eq]
  · simp [effLimit, hl]

/-- C4 witness: the truncation theorem applied with limit `-5` on the
concrete instance (where it yields at most one of the two matches). -/
theorem c4_limit_truncation_witness :
    exCons.consolidated = true ∧
    ((∃ res, search exCons "a" (some (-5)) = .ok res ∧
      res.length = min (effLimit (some (-5)))
        (searchTableP exCons (JsVal.toks ["a"]).toTokens []).length) ∧
    effLimit none = 10 ∧ effLimit (some 0) = 10 ∧
    (∀ l : ℤ, l ≠ 0 → effLimit (some l) = (max l 1).toNat)) := by
  exact ⟨by decide,
    c4_limit_truncation exCons "a" (some (-5)) (JsVal.toks ["a"])
      (by decide) (by decide) (by decide)⟩

/-! ### Claim C8: soundness of the inverted index -/

theorem sublist_of_concat_not_mem {l l2 : List String} {a : String}
    (h : l.Sublist (l2 ++ [a])) (ha : a ∉ l) : l.Sublist l2 := by
  rcases List.sublist_append_iff.1 h with ⟨x, y, rfl, hx, hy⟩
  rcases List.sublist_singleton.1 hy with rfl | rfl
  · simpa using hx
  · simp at ha

theorem docHas_mem_keys (docs : List (String × DocRecord)) (j t : String)
    (h : docHas docs j t) : j ∈ keysOf docs := by
  rcases h with ⟨rec, hrec, _⟩
  by_contra hk
  rw [(getVal_eq_none_iff docs j).2 hk] at hrec
  exact Option.noConfusion hrec

theorem docHas_append (docs0 : List (String × DocRecord)) (id : String)
    (rec : DocRecord) (hid : id ∉ keysOf docs0) (j t : String) :
    docHas (docs0 ++ [(id, rec)]) j t ↔
      ((j = id ∧ (getVal rec.freq t).isSome = true) ∨
       (j ≠ id ∧ docHas docs0 j t)) := by
  unfold docHas
  rw [getVal_append]
  cases hg : getVal docs0 j with
  | some r =>
    have hj : j ∈ keysOf docs0 := by
      by_contra hk
      rw [(getVal_eq_none_iff docs0 j).2 hk] at hg
      exact Option.noConfusion hg
    have hne : j ≠ id := fun he => hid (he ▸ hj)
    simp only []
    constructor
    · rintro ⟨rec', hr, hfr⟩
      exact Or.inr ⟨hne, rec', hr, hfr⟩
    · rintro (⟨he, _⟩ | ⟨_, rec', hr, hfr⟩)
      · exact absurd he hne
      · exact ⟨rec', hr, hfr⟩
  | none =>
    simp only []
    by_cases he : j = id
    · subst he
      simp only [getVal_cons, getVal_nil, if_pos rfl]
      constructor
      · rintro ⟨rec', hr, hfr⟩
        have hrr : rec = rec' := by injection hr
        exact Or.inl ⟨by simp, hrr ▸ hfr⟩
      · rintro (⟨_, hfr⟩ | ⟨hne, _⟩)
        · exact ⟨rec, rfl, hfr⟩
        · exact absurd rfl hne
    · simp only [getVal_cons, getVal_nil, if_neg (Ne.symm he)]
      constructor
      · rintro ⟨rec', hr, _⟩
        exact Option.noConfusion hr
      · rintro (⟨hee, _⟩ | ⟨_, rec', hr, _⟩)
        · exact absurd hee he
        · exact Option.noConfusion hr

theorem loopInv_entry (docs0 : List (String × DocRecord)) (id : String)
    (inv : List (String × List String)) (hs : invSound docs0 inv)
    (hid : id ∉ keysOf docs0) : loopInv docs0 id [] inv := by
  intro t
  rcases hs t with ⟨hsome, hnone⟩
  constructor
  · intro ids hids
    rcases hsome ids hids with ⟨hsub, hmem⟩
    refine ⟨hsub.trans (List.sublist_append_left _ _), fun j => ?_⟩
    constructor
    · intro hj
      have hd := (hmem j).1 hj
      refine Or.inr ⟨fun he => ?_, hd⟩
      rw [he] at hd
      exact hid (docHas_mem_keys docs0 id t hd)
    · rintro (⟨_, hfr⟩ | ⟨_, hd⟩)
      · simp [getVal] at hfr
      · exact (hmem j).2 hd
  · intro hno
    exact ⟨rfl, hnone hno⟩

theorem loopInv_step (docs0 : List (String × DocRecord)) (id : String)
    (w : ℚ) (t : String)
    (pr : List (String × ℚ) × List (String × List String))
    (h : loopInv docs0 id pr.1 pr.2) :
    loopInv docs0 id (freqStep false id w pr t).1.1
      (freqStep false id w pr t).1.2 := by
  unfold freqStep
  cases hf : getVal pr.1 t with
  | some f =>
    dsimp only
    intro t'
    rcases h t' with ⟨hsome, hnone⟩
    constructor
    · intro ids hids
      rcases hsome ids hids with ⟨hsub, hmem⟩
      refine ⟨hsub, fun j => ?_⟩
      rw [hmem j]
      by_cases ht' : t = t'
      · subst ht'
        rw [getVal_setVal_self, hf]
        simp
      · rw [getVal_setVal_ne _ _ _ _ ht']
    · intro hno
      rcases hnone hno with ⟨hfr, hnd⟩
      refine ⟨?_, hnd⟩
      by_cases ht' : t = t'
      · subst ht'
        rw [hf] at hfr
        exact Option.noConfusion hfr
      · rw [getVal_setVal_ne _ _ _ _ ht']
        exact hfr
  | none =>
    dsimp only
    rw [if_neg (show ¬(false = true ∧ t ∈ objectProtoKeys ∧
      getVal pr.2 t = none) by simp)]
    dsimp only
    intro t'
    rcases h t' with ⟨hsome, hnone⟩
    by_cases ht' : t = t'
    · subst ht'
      constructor
      · intro ids hids
        rw [getVal_setVal_self] at hids
        injection hids with hids
        subst hids
        cases hold : getVal pr.2 t with
        | some old =>
          rcases hsome old hold with ⟨hsub, hmem⟩
          have hidnot : id ∉ old := by
            intro hmm
            rcases (hmem id).1 hmm with ⟨_, hfr⟩ | ⟨hne, _⟩
            · rw [hf] at hfr
              simp at hfr
            · exact hne rfl
          simp only [Option.getD_some]
          constructor
          · exact List.Sublist.append
              (sublist_of_concat_not_mem hsub hidnot)
              (List.Sublist.refl [id])
          · intro j
            constructor
            · intro hj
              rcases List.mem_append.1 hj with hj | hj
              · rcases (hmem j).1 hj with ⟨_, hfr⟩ | ⟨hne, hd⟩
                · rw [hf] at hfr
                  simp at hfr
                · exact Or.inr ⟨hne, hd⟩
              · refine Or.inl ⟨by simpa using hj, ?_⟩
                rw [getVal_setVal_self]
                rfl
            · rintro (⟨he, _⟩ | ⟨hne, hd⟩)
              · subst he
                exact List.mem_append.2 (Or.inr (by simp))
              · exact List.mem_append.2
                  (Or.inl ((hmem j).2 (Or.inr ⟨hne, hd⟩)))
        | none =>
          rcases hnone hold with ⟨_, hnd⟩
          simp only [Option.getD_none, List.nil_append]
          constructor
          · simp
          · intro j
            constructor
            · intro hj
              simp only [Option.getD, List.nil_append] at hj
              refine Or.inl ⟨by simpa using hj, ?_⟩
              rw [getVal_setVal_self]
              rfl
            · rintro (⟨he, _⟩ | ⟨_, hd⟩)
              · subst he
                simp
              · exact absurd hd (hnd j)
      · intro hno
        rw [getVal_setVal_self] at hno
        exact Option.noConfusion hno
    · constructor
      · intro ids hids
        rw [getVal_setVal_ne _ _ _ _ ht'] at hids
        rcases hsome ids hids with ⟨hsub, hmem⟩
        refine ⟨hsub, fun j => ?_⟩
        rw [hmem j, getVal_setVal_ne _ _ _ _ ht']
      · intro hno
        rw [getVal_setVal_ne _ _ _ _ ht'] at hno
        rcases hnone hno with ⟨hfr, hnd⟩
        refine ⟨?_, hnd⟩
        rw [getVal_setVal_ne _ _ _ _ ht']
        exact hfr

theorem loopInv_fold (docs0 : List (String × DocRecord)) (id : String)
    (w : ℚ) (tkns : List String) :
    ∀ pr : List (String × ℚ) × List (String × List String),
      loopInv docs0 id pr.1 pr.2 →
      loopInv docs0 id (runFreqSteps false id w tkns pr).1.1
        (runFreqSteps false id w tkns pr).1.2 := by
  induction tkns with
  | nil => intro pr h; exact h
  | cons t rest ih =>
    intro pr h
    unfold runFreqSteps
    have hstep := loopInv_step docs0 id w t pr h
    cases hs : freqStep false id w pr t with
    | mk pr2 r =>
      rw [hs] at hstep
      cases r with
      | error e => exact hstep
      | ok u => exact ih pr2 hstep

theorem updateFreq_loopInv (docs0 : List (String × DocRecord))
    (st : EngineState) (id text : String) (w : ℚ)
    (freq : List (String × ℚ)) (inv : List (String × List String))
    (field : String) (hfj : st.fromJSON = false)
    (hinv : loopInv docs0 id freq inv) :
    loopInv docs0 id (updateFreq st id text w freq inv field).1.1
      (updateFreq st id text w freq inv field).1.2 := by
  unfold updateFreq
  cases hp : prepareInput st (.str text) (some field) with
  | error e => exact hinv
  | ok v =>
    dsimp only
    rw [hfj]
    have hfd := loopInv_fold docs0 id w v.toTokens (freq, inv) hinv
    cases hs : runFreqSteps false id w v.toTokens (freq, inv) with
    | mk p r =>
      rw [hs] at hfd
      cases r with
      | error e => exact hfd
      | ok l => exact hfd

theorem addFields_loopInv (docs0 : List (String × DocRecord))
    (st : EngineState) (doc : List (String × String)) (id : String)
    (hfj : st.fromJSON = false) :
    ∀ (fields : List (String × ℚ)) (acc : AddAcc),
      loopInv docs0 id acc.freq acc.inv →
      loopInv docs0 id (addFields st doc id fields acc).1.freq
        (addFields st doc id fields acc).1.inv := by
  intro fields
  induction fields with
  | nil => intro acc h; exact h
  | cons fw rest ih =>
    intro acc h
    unfold addFields
    cases getVal doc fw.1 with
    | none => exact h
    | some text =>
      dsimp only
      have hu2 := updateFreq_loopInv docs0 st id text fw.2 acc.freq acc.inv
        fw.1 hfj h
      cases hu : updateFreq st id text fw.2 acc.freq acc.inv fw.1 with
      | mk p r =>
        rw [hu] at hu2
        cases r with
        | error e => exact hu2
        | ok l => exact ih ⟨p.1, p.2, acc.tcl + l, acc.len + l⟩ hu2

theorem loopInv_exit (docs0 : List (String × DocRecord)) (id : String)
    (freq : List (String × ℚ)) (inv : List (String × List String))
    (len : ℚ) (h : loopInv docs0 id freq inv)
    (hid : id ∉ keysOf docs0) :
    invSound (docs0 ++ [(id, ⟨freq, len⟩)]) inv := by
  intro t
  rcases h t with ⟨hsome, hnone⟩
  constructor
  · intro ids hids
    rcases hsome ids hids with ⟨hsub, hmem⟩
    constructor
    · rw [keysOf_append]
      exact hsub
    · intro j
      rw [docHas_append docs0 id ⟨freq, len⟩ hid j t]
      exact hmem j
  · intro hno
    rcases hnone hno with ⟨hfr, hnd⟩
    intro j hd
    rw [docHas_append docs0 id ⟨freq, len⟩ hid j t] at hd
    rcases hd with ⟨_, hfr2⟩ | ⟨_, hd2⟩
    · show False
      have : (getVal freq t).isSome = true := hfr2
      rw [hfr] at this
      simp at this
    · exact hnd j hd2

theorem indexInv_init : IndexInv initState := by
  refine ⟨rfl, rfl, by simp [initState, keysOf], by simp [initState, keysOf],
    fun t => ⟨fun ids hids => ?_, fun _ j hd => ?_⟩⟩
  · simp [initState, getVal] at hids
  · rcases hd with ⟨rec, hrec, _⟩
    simp [initState, getVal] at hrec

theorem indexInv_prep (st : EngineState) (tasks : List PrepTask)
    (field : Option String) (ii : IndexInv st) :
    IndexInv (definePrepTasks st tasks field).1 := by
  cases field with
  | none => exact ⟨ii.notCons, ii.notJSON, ii.docsNodup, ii.invNodup, ii.sound⟩
  | some f => exact ⟨ii.notCons, ii.notJSON, ii.docsNodup, ii.invNodup, ii.sound⟩

theorem indexInv_config (st : EngineState) (cfg : RawConfig)
    (ii : IndexInv st) : IndexInv (defineConfig st cfg).1 := by
  rcases defineConfig_state st cfg with h | ⟨_, c, h⟩
  · rw [h]
    exact ii
  · rw [h]
    exact ⟨ii.notCons, ii.notJSON, ii.docsNodup, ii.invNodup, ii.sound⟩

theorem indexInv_add (st : EngineState) (doc : List (String × String))
    (id : String) (ii : IndexInv st) : IndexInv (addDoc st doc id).1 := by
  cases hc : st.config with
  | none =>
    rw [addDoc_config_none st doc id hc]
    exact ii
  | some cfg =>
    have hcons : st.consolidated = false := ii.notCons
    by_cases hdup : jsHasProp st.fromJSON st.documents id = true
    · rw [addDoc_duplicate st doc id cfg hc hcons hdup]
      exact ⟨ii.notCons, ii.notJSON, ii.docsNodup, ii.invNodup, ii.sound⟩
    · rw [Bool.not_eq_true] at hdup
      have hnew : getVal st.documents id = none :=
        jsHasProp_false_getVal st.fromJSON st.documents id hdup
      have hid : id ∉ keysOf st.documents := (getVal_eq_none_iff _ _).1 hnew
      have hloop := addFields_loopInv st.documents
        { st with learned := true } doc id ii.notJSON cfg.fldWeights
        ⟨[], st.invertedIdx, st.totalCorpusLength, 0⟩
        (loopInv_entry st.documents id st.invertedIdx ii.sound hid)
      have hsound := loopInv_exit st.documents id
        (addFields { st with learned := true } doc id cfg.fldWeights
          ⟨[], st.invertedIdx, st.totalCorpusLength, 0⟩).1.freq
        (addFields { st with learned := true } doc id cfg.fldWeights
          ⟨[], st.invertedIdx, st.totalCorpusLength, 0⟩).1.inv
        (addFields { st with learned := true } doc id cfg.fldWeights
          ⟨[], st.invertedIdx, st.totalCorpusLength, 0⟩).1.len
        hloop hid
      have hnodup : (keysOf (st.documents ++
          [(id,
            ⟨(addFields { st with learned := true } doc id cfg.fldWeights
                ⟨[], st.invertedIdx, st.totalCorpusLength, 0⟩).1.freq,
             (addFields { st with learned := true } doc id cfg.fldWeights
                ⟨[], st.invertedIdx, st.totalCorpusLength, 0⟩).1.len⟩)])).Nodup := by
        rw [keysOf_append]
        simp [List.nodup_append, keysOf]
        exact ⟨ii.docsNodup,
          fun x hx => hid (by simpa [keysOf] using
            List.mem_map_of_mem Prod.fst hx)⟩
      have hinvn := addFields_inv_nodup { st with learned := true } doc id
        cfg.fldWeights ⟨[], st.invertedIdx, st.totalCorpusLength, 0⟩
        ii.invNodup
      cases h2 : (addFields { st with learned := true } doc id
          cfg.fldWeights ⟨[], st.invertedIdx, st.totalCorpusLength, 0⟩).2
        with
      | error e =>
        rw [addDoc_run_error st doc id cfg e hc hcons hdup h2]
        exact ⟨ii.notCons, ii.notJSON, hnodup, hinvn, hsound⟩
      | ok u =>
        cases u
        rw [addDoc_run_ok st doc id cfg hc hcons hdup h2]
        exact ⟨ii.notCons, ii.notJSON, hnodup, hinvn, hsound⟩

theorem built_indexInv (st : EngineState) (h : Built st) : IndexInv st := by
  induction h with
  | init => exact indexInv_init
  | prep st tasks field _ ih => exact indexInv_prep st tasks field ih
  | config st cfg _ ih => exact indexInv_config st cfg ih
  | add st doc id _ ih => exact indexInv_add st doc id ih

/-- C8: in every pre-consolidation state built by pipeline, configuration
and `addDoc` calls, the inverted index maps each term to the
duplicate-free list of the ids of exactly the documents whose frequency
map holds the term, listed in document-addition order (a subsequence of
the document store's key order); terms without a posting list occur in no
stored document. -/
theorem c8_inverted_index_sound (st : EngineState) (hb : Built st) :
    (∀ t ids, getVal st.invertedIdx t = some ids →
      ids.Nodup ∧ ids.Sublist (keysOf st.documents) ∧
      (∀ id, id ∈ ids ↔ docHas st.documents id t)) ∧
    (∀ t, getVal st.invertedIdx t = none →
      ∀ id, ¬ docHas st.documents id t) := by
  have ii := built_indexInv st hb
  constructor
  · intro t ids hi
    rcases (ii.sound t).1 ids hi with ⟨hsub, hmem⟩
    exact ⟨List.Nodup.sublist hsub ii.docsNodup, hsub, hmem⟩
  · exact fun t hi => (ii.sound t).2 hi

/-- C8 witness: the index-soundness theorem applied to the concrete
three-document instance. -/
theorem c8_inverted_index_sound_witness :
    Built exAdd4 ∧
    ((∀ t ids, getVal exAdd4.invertedIdx t = some ids →
      ids.Nodup ∧ ids.Sublist (keysOf exAdd4.documents) ∧
      (∀ id, id ∈ ids ↔ docHas exAdd4.documents id t)) ∧
    (∀ t, getVal exAdd4.invertedIdx t = none →
      ∀ id, ¬ docHas exAdd4.documents id t)) := by
  have hb : Built exAdd4 :=
    .add exAdd3 [("t", "a")] "d3"
      (.add exAdd2 [("t", "b")] "d2"
        (.add exAdd1 [("t", "a")] "d1"
          (.config exAdd0 exCfgT (.prep initState [exTok] none .init))))
  exact ⟨hb, c8_inverted_index_sound exAdd4 hb⟩

/-! ### Claim C10 -/

/-- C10, the failing input.  Define a non-empty default pipeline and an
*empty* field-specific task list for field `t` (both accepted by
`definePrepTasks`), configure field `t`, and add a document: `prepareInput`
selects the field entry's empty task array (arrays are truthy even when
empty) but the *default* pipeline's task count (a count of `0` is falsy),
so it calls `pt[0]`, which is `undefined` — a raw `TypeError`, an error
outside the five documented kinds. -/
theorem c10_undocumented_type_error :
    (addDoc exPipe [("t", "a")] "d1").2 = .error .typeError ∧
    EngineError.typeError.isDocumentedKind = false := by
  exact ⟨by decide, rfl⟩
